import Mathlib

/-!
# Verification of the fgroup file-tree grouping engine

A shallow embedding of the core of the `fgroup` repository
(`fgroup/util.py`, `fgroup/filetree.py`, `fgroup/grouper.py`) and proofs
about the claims of its specification.

Modelling conventions:

* The Unix branch of the platform-dependent path helpers is embedded
  (`os.path.altsep is None`), with `SEP = "/"` and `DEFAULT_PATH = "/"`.
* The filesystem snapshot observed during a run is an explicit value of
  type `FsEnt` (a finite tree of directories and files, with `deny`
  standing for an unreadable directory, whose listing raises).
* Python standard-library functions used by the code
  (`os.path.normpath`, `os.path.join`, `os.path.relpath`, `os.listdir`,
  `glob.iglob`) are modelled from their documented behaviour; each model
  carries a doc comment.  `glob.iglob` is modelled for literal segments,
  `*` and `?` wildcards; character classes are not modelled (no claim
  exercises them), and whole `**` segments never reach the resolver
  because `glob_children` intercepts them.
* Python generators are embedded in sink-passing style: `glob_children`
  takes the consumer's loop body as a function (`Sink`) and runs it at
  each yield point, so the consumer's mutations are visible to the rest
  of the pattern evaluation exactly as with the source's lazy
  generators (`list(...)` call sites use the collecting sink).
* A tree node is addressed by the list of child names leading to it from
  the root; mutating operations take the whole tree and an address and
  return the new tree.  `prune()` invoked on a node that an earlier prune
  already detached is modelled as a no-op: in the source the detached
  object is mutated but is unreachable from the tree.
-/

namespace Fgroup

/-- `DEFAULT_GROUP` from `util.py`. -/
def DEFAULT_GROUP : String := "unknown"

/-- `SEP` on the Unix branch of `util.py`. -/
def SEP : String := "/"

/-- `DEFAULT_PATH` on the Unix branch of `util.py`. -/
def DEFAULT_PATH : String := "/"

/-- Whether `pre` is an initial run of `cs`. -/
def headRun : List Char → List Char → Bool
  | [], _ => true
  | _ :: _, [] => false
  | p :: pr, c :: cr => p = c && headRun pr cr

/-- Modelled from Python `str.split(sep)` with a nonempty separator:
left-to-right, non-overlapping, keeping empty pieces.  Fueled by the
input length so the recursion is structural (the separator skip is not a
tail). -/
def listSplit (sep : List Char) : Nat → List Char → List (List Char)
  | _, [] => [[]]
  | 0, cs => [cs]
  | f + 1, c :: rest =>
    if headRun sep (c :: rest) ∧ ¬ sep.isEmpty then
      [] :: listSplit sep f ((c :: rest).drop sep.length)
    else
      match listSplit sep f rest with
      | hd :: tl => (c :: hd) :: tl
      | [] => [[c]]

/-- Python `s.split(sep)` on strings. -/
def pySplit (sep s : String) : List String :=
  (listSplit sep.toList s.toList.length s.toList).map (fun l => String.mk l)

/-- Python `s.startswith(pre)`. -/
def strStartsWith (s pre : String) : Bool :=
  headRun pre.toList s.toList

/-- Python `s.endswith(suf)`. -/
def strEndsWith (s suf : String) : Bool :=
  headRun suf.toList.reverse s.toList.reverse

/-- Python `<` on strings: lexicographic comparison by code point. -/
def strLtChars : List Char → List Char → Bool
  | [], [] => false
  | [], _ :: _ => true
  | _ :: _, [] => false
  | a :: ar, b :: br =>
    if a < b then true else if b < a then false else strLtChars ar br

/-- Unix `split_path` from `util.py`: `path.split(SEP)`. -/
def split_path (path : String) : List String :=
  pySplit SEP path

/-- Unix `strip_path` from `util.py`: `path.strip(SEPS)` with `SEPS = "/"`. -/
def strip_path (path : String) : String :=
  let cs := path.toList
  String.mk (((cs.dropWhile (· = '/')).reverse.dropWhile (· = '/')).reverse)

/-- Modelled from the Python standard library: `os.path.normpath` on posix.
Collapses repeated separators and `.` components, resolves `..` components
(without consuming leading `..` on relative paths, and dropping `..` at the
root of absolute paths); empty input normalises to `"."`; a path starting
with exactly two slashes keeps both. -/
def normpath (p : String) : String :=
  if p = "" then "." else
  let initialSlashes : Nat :=
    if strStartsWith p "//" ∧ ¬ strStartsWith p "///" then 2
    else if strStartsWith p "/" then 1 else 0
  let comps := pySplit "/" p
  let newComps := comps.foldl (fun (acc : List String) comp =>
    if comp = "" ∨ comp = "." then acc
    else if comp ≠ ".." ∨ (initialSlashes = 0 ∧ acc = []) ∨
            (acc ≠ [] ∧ acc.getLast? = some "..") then acc ++ [comp]
    else if acc ≠ [] then acc.dropLast
    else acc) []
  let res := String.join (List.replicate initialSlashes "/") ++
    String.intercalate "/" newComps
  if res = "" then "." else res

/-- Modelled from the Python standard library: `os.path.join(a, b)` on posix
for two arguments. -/
def pyJoin (a b : String) : String :=
  if strStartsWith b "/" then b
  else if a = "" ∨ strEndsWith a "/" then a ++ b
  else a ++ "/" ++ b

/-- Unix `abs_path` from `util.py`. -/
def abs_path (cwd path : String) : String :=
  if path = "" then "" else
  let resolved := pyJoin (if cwd = "" then cwd else normpath cwd) path
  if resolved = "" then ""
  else SEP ++ strip_path (normpath resolved)

/-- Modelled from the Python standard library: `os.path.relpath(path, start)`
on posix, for inputs that are already absolute (as all call sites here
guarantee): split both into nonempty components, drop the common prefix,
prepend one `..` per remaining start component, `"."` if nothing remains. -/
def relpath (path start : String) : String :=
  let pl := (pySplit "/" (normpath path)).filter (· ≠ "")
  let sl := (pySplit "/" (normpath start)).filter (· ≠ "")
  let rec common : List String → List String → Nat
    | a :: as, b :: bs => if a = b then 1 + common as bs else 0
    | _, _ => 0
  let i := common pl sl
  let rel := List.replicate (sl.length - i) ".." ++ pl.drop i
  if rel = [] then "." else String.intercalate "/" rel

/-! ## The filesystem snapshot -/

/-- A filesystem entry: a regular file, a readable directory with an ordered
listing, or an unreadable directory (`deny`): listing it raises
`PermissionError`, but it still reports as a directory. -/
inductive FsEnt where
  | file : FsEnt
  | dir : List (String × FsEnt) → FsEnt
  | deny : FsEnt
deriving Repr

/-- Look up a name in a directory listing. -/
def fsLookup (name : String) : List (String × FsEnt) → Option FsEnt
  | [] => none
  | (n, e) :: rest => if n = name then some e else fsLookup name rest

/-- Walk an `FsEnt` along a list of path components. -/
def fsFind : FsEnt → List String → Option FsEnt
  | e, [] => some e
  | FsEnt.dir es, seg :: rest =>
    match fsLookup seg es with
    | some e => fsFind e rest
    | none => none
  | _, _ :: _ => none

/-- The nonempty components of an absolute path string. -/
def pathSegs (p : String) : List String :=
  (pySplit "/" p).filter (· ≠ "")

/-- Resolve an absolute path string against the snapshot (whose root is the
filesystem root `/`).  The empty string resolves to nothing, as every
`os` call on `""` fails. -/
def fsFindPath (fs : FsEnt) (p : String) : Option FsEnt :=
  if p = "" then none else fsFind fs (pathSegs p)

/-- Modelled from the Python standard library: `os.listdir`, returning
`Except` to mirror the raised `FileNotFoundError` / `NotADirectoryError` /
`PermissionError` of a missing path, a file, and an unreadable directory. -/
def osListdir (fs : FsEnt) (p : String) : Except Unit (List String) :=
  match fsFindPath fs p with
  | some (FsEnt.dir es) => Except.ok (es.map Prod.fst)
  | some FsEnt.file => Except.error ()
  | some FsEnt.deny => Except.error ()
  | none => Except.error ()

/-- Unix `list_path` from `util.py`: empty string short-circuits to `[]`,
and every `os.listdir` error is absorbed into `[]`. -/
def list_path (fs : FsEnt) (path : String) : List String :=
  if path = "" then [] else
  match osListdir fs path with
  | Except.ok names => names
  | Except.error _ => []

/-- Modelled from the Python standard library: `os.path.isdir`.  Both
readable and unreadable directories report true. -/
def fsIsDir (fs : FsEnt) (p : String) : Bool :=
  match fsFindPath fs p with
  | some (FsEnt.dir _) => true
  | some FsEnt.deny => true
  | _ => false

/-! ## The glob resolver -/

/-- Modelled from the Python standard library: `fnmatch` single-segment
matching with `*` and `?` (character classes not modelled; with
`include_hidden=True` there is no special-casing of leading dots). -/
def matchSegF : Nat → List Char → List Char → Bool
  | _, [], [] => true
  | _, [], _ :: _ => false
  | 0, _, _ => false
  | f + 1, '*' :: pr, [] => matchSegF f pr []
  | f + 1, '*' :: pr, c :: sr =>
    matchSegF f pr (c :: sr) || matchSegF f ('*' :: pr) sr
  | f + 1, '?' :: pr, _ :: sr => matchSegF f pr sr
  | f + 1, p :: pr, c :: sr => p = c && matchSegF f pr sr
  | _ + 1, _ :: _, [] => false

/-- Single-segment match with enough fuel for any input. -/
def matchSeg (p s : List Char) : Bool :=
  matchSegF (p.length + s.length + 1) p s

/-- Whether an entry is a directory (unreadable ones included). -/
def isDirEnt : FsEnt → Bool
  | FsEnt.dir _ => true
  | FsEnt.deny => true
  | FsEnt.file => false

/-- Modelled from the Python standard library: the core of `glob.iglob`
relative to a directory listing.  Each pattern segment is matched against
the entries in listing order; intermediate segments only descend into
readable directories (listing an unreadable one raises and yields
nothing); the final segment optionally requires a directory
(`dirs_only`, i.e. a trailing separator in the source). -/
def globSegs : List (String × FsEnt) → List String → Bool → List (List String)
  | _, [], _ => []
  | entries, [seg], dirsOnly =>
    entries.filterMap (fun (ne : String × FsEnt) =>
      if matchSeg seg.toList ne.fst.toList ∧ (¬ dirsOnly ∨ isDirEnt ne.snd)
      then some [ne.fst] else none)
  | entries, seg :: seg' :: rest, dirsOnly =>
    entries.foldl (fun acc (ne : String × FsEnt) =>
      if matchSeg seg.toList ne.fst.toList then
        match ne.snd with
        | FsEnt.dir es =>
          acc ++ (globSegs es (seg' :: rest) dirsOnly).map (ne.fst :: ·)
        | _ => acc
      else acc) []

/-- Modelled from the Python standard library: `glob.iglob(nglob,
root_dir=nroot, recursive=True, include_hidden=True)`, returning the
matched paths relative to `nroot` (with the trailing-separator /
`dirs_only` handling of `glob_root` folded in). -/
def modelIglob (fs : FsEnt) (nroot nglob : String) (dirsOnly : Bool) :
    List String :=
  match fsFindPath fs nroot with
  | some (FsEnt.dir es) =>
    (globSegs es (pySplit "/" nglob) dirsOnly).map (String.intercalate "/")
  | _ => []

/-- `glob_root` from `util.py` (Unix branch): cross-platform glob relative
to the root path; root may be empty (then the filesystem root is used, and
a separator-only glob yields the filesystem root itself). -/
def glob_root (fs : FsEnt) (root rglob : String) (dirs_only : Bool) :
    List String :=
  if rglob = "" then [] else
  let nglob := strip_path rglob
  if root = "" ∧ nglob = "" then [DEFAULT_PATH] else
  let nroot := if root = "" then DEFAULT_PATH else root
  if nglob = "" then [] else
  let nroot := if strEndsWith nroot SEP then nroot else nroot ++ SEP
  modelIglob fs nroot nglob dirs_only

/-! ## The file tree

`FileTreeNode.__init__` from `filetree.py`: per-node state.  The `path`
field of the source is derived data (`abs_path(parent.path, name)`); here
it is recomputed from the root path and the node's address by `pathOf`. -/

structure NData where
  group : Option String
  visited : Bool
  expanded : Bool
  collapsed : Bool
  quasi : Bool
  prune_guard : Nat
  weight : Nat
deriving Repr, DecidableEq

/-- A file-tree node with its state and its ordered children map
(Python's insertion-ordered `dict[str, FileTreeNode]`). -/
inductive NTree where
  | mk : NData → List (String × NTree) → NTree
deriving Repr

/-- The state record of a node. -/
def NTree.data : NTree → NData
  | NTree.mk d _ => d

/-- The children map of a node. -/
def NTree.children : NTree → List (String × NTree)
  | NTree.mk _ cs => cs

/-- Look up a child by name. -/
def childLookup (name : String) : List (String × NTree) → Option NTree
  | [] => none
  | (n, c) :: rest => if n = name then some c else childLookup name rest

/-- Replace the child of the given name (no-op when absent). -/
def childReplace (name : String) (c' : NTree) :
    List (String × NTree) → List (String × NTree)
  | [] => []
  | (n, c) :: rest =>
    if n = name then (n, c') :: rest else (n, c) :: childReplace name c' rest

/-- Remove the child of the given name (`del parent.children[name]`). -/
def childRemove (name : String) :
    List (String × NTree) → List (String × NTree)
  | [] => []
  | (n, c) :: rest =>
    if n = name then rest else (n, c) :: childRemove name rest

/-- The node at an address (list of child names from this node). -/
def getN : NTree → List String → Option NTree
  | t, [] => some t
  | NTree.mk _ cs, name :: rest =>
    match childLookup name cs with
    | some c => getN c rest
    | none => none

/-- Apply `f` to the subtree at an address (no-op when absent). -/
def updN : NTree → List String → (NTree → NTree) → NTree
  | t, [], f => f t
  | NTree.mk d cs, name :: rest, f =>
    match childLookup name cs with
    | some c => NTree.mk d (childReplace name (updN c rest f) cs)
    | none => NTree.mk d cs

/-- Update only the state record at an address. -/
def updData (t : NTree) (addr : List String) (f : NData → NData) : NTree :=
  updN t addr (fun n => NTree.mk (f n.data) n.children)

/-- The absolute path of the node at `addr` in a tree whose root node has
path `rootP`: each node's path is `abs_path(parent.path, name)` as in
`FileTreeNode.__init__`. -/
def pathOf (rootP : String) (addr : List String) : String :=
  addr.foldl abs_path rootP

/-- The node state constructed by `FileTreeNode.__init__` for a node with
`depth` ancestors: `visited` and `expanded` iff a group was given,
`collapsed`, weight = number of ancestors. -/
def newNode (group : Option String) (quasi : Bool) (depth : Nat) : NTree :=
  NTree.mk
    { group := group, visited := group.isSome, expanded := group.isSome,
      collapsed := true, quasi := quasi, prune_guard := 0, weight := depth }
    []

/-- `FileTreeNode.get_child` at address `paddr`: return the existing child
or create one, a new child inheriting `quasi` from its parent unless
explicitly given. -/
def getChildAt (t : NTree) (paddr : List String) (name : String)
    (group : Option String) (quasi : Option Bool) : NTree :=
  updN t paddr (fun p =>
    match childLookup name p.children with
    | some _ => p
    | none =>
      NTree.mk p.data (p.children ++
        [(name, newNode group (quasi.getD p.data.quasi) (paddr.length + 1))]))

/-- `FileTreeNode.locate` from address `base`: walk the path, creating
missing children; abandon the path (returning no node) as soon as the
node just stepped into is visited. -/
def locateAt (t : NTree) (base : List String) :
    List String → NTree × Option (List String)
  | [] => (t, some base)
  | part :: rest =>
    let t1 := getChildAt t base part none none
    let cur := base ++ [part]
    match getN t1 cur with
    | some n =>
      if n.data.visited then (t1, none)
      else locateAt t1 cur rest
    | none => (t1, none)

/-- One step plus cascade of `FileTreeNode.prune`, over the list of
addresses from the node upward (its nonempty ancestor prefixes, longest
first; the root has no parent and is never in the list).  At each address:
stop if the node is guarded, has children, or is visited; otherwise fold
its weight into its parent, remove it, and continue with the parent. -/
def pruneChain (t : NTree) : List (List String) → NTree
  | [] => t
  | p :: rest =>
    match getN t p with
    | none => t
    | some n =>
      if n.data.prune_guard > 0 ∨ ¬ n.children.isEmpty ∨ n.data.visited then t
      else
        let nm := p.getLastD ""
        let t1 := updN t p.dropLast (fun par =>
          NTree.mk { par.data with weight := par.data.weight + n.data.weight }
            (childRemove nm par.children))
        pruneChain t1 rest

/-- `FileTreeNode.prune` invoked on the node at an address.  (Pruning a
node an earlier prune already detached is a no-op here; in the source the
detached object is mutated invisibly.) -/
def pruneN (t : NTree) (addr : List String) : NTree :=
  pruneChain t ((List.range addr.length).reverse.map (fun i => addr.take (i + 1)))

/-- The ancestor loop of `FileTreeNode.observe`, over the ancestor
addresses from the parent upward: clear `quasi` while the ancestor is
quasi, stopping at the first non-quasi one. -/
def obsChain (t : NTree) : List (List String) → NTree
  | [] => t
  | p :: rest =>
    match getN t p with
    | none => t
    | some n =>
      if n.data.quasi then
        obsChain (updData t p (fun d => { d with quasi := false })) rest
      else t

/-- `FileTreeNode.observe`: nothing to do on a non-quasi node; otherwise
clear `quasi` here and then up the ancestor chain until a non-quasi
ancestor is met. -/
def observeAt (t : NTree) (addr : List String) : NTree :=
  match getN t addr with
  | none => t
  | some n =>
    if n.data.quasi then
      let t1 := updData t addr (fun d => { d with quasi := false })
      obsChain t1 ((List.range addr.length).reverse.map (addr.take ·))
    else t

mutual
/-- `FileTreeNode.collapse` on a subtree: return if collapsed or visited;
otherwise remove quasi children (folding each removed child's own weight
into this node), recursively collapse non-collapsed surviving children,
and mark the node `expanded=false, collapsed=true`. -/
def collapseSub : NTree → NTree
  | NTree.mk d cs =>
    if d.collapsed ∨ d.visited then NTree.mk d cs
    else
      let (w, cs') := collapseKids cs
      NTree.mk
        { d with weight := d.weight + w, expanded := false, collapsed := true }
        cs'

/-- The child loop of `FileTreeNode.collapse`: drop quasi children
(accumulating their weights), recurse into non-collapsed survivors. -/
def collapseKids : List (String × NTree) → Nat × List (String × NTree)
  | [] => (0, [])
  | (n, c) :: rest =>
    let (w, rest') := collapseKids rest
    if c.data.quasi then (c.data.weight + w, rest')
    else if ¬ c.data.collapsed then (w, (n, collapseSub c) :: rest')
    else (w, (n, c) :: rest')
end

/-- `collapse()` invoked on the node at an address. -/
def collapseAt (t : NTree) (addr : List String) : NTree :=
  updN t addr collapseSub

mutual
/-- The subtree part of `FileTreeNode.expand`, driven directly by the
filesystem entry for the node's path (`none` for a missing path, so that
`os.path.isdir` is false; an unreadable directory is a directory whose
listing is empty).  `depth` is the number of ancestors of this node.
Returns the expanded subtree and whether a `collapsed=false` marking must
propagate to the ancestors above this subtree (the ancestor loop at the
end of `expand`; a marking raised by a descendant inside the subtree is
applied to the intermediate nodes by `expandKids` directly, as the
source's ancestor loop does at the moment the descendant expands). -/
def expandEnt (e : FsEnt) (depth : Nat) (n : NTree) : NTree × Bool :=
  if n.data.expanded ∨ n.data.visited then (n, false)
  else
    let isdir : Bool := match e with
      | FsEnt.dir _ => true
      | FsEnt.deny => true
      | FsEnt.file => false
    let st : NTree × Bool := match e with
      | FsEnt.dir es => expandKids es depth n
      | _ => (n, false)
    let n1 := NTree.mk { st.fst.data with expanded := true } st.fst.children
    if isdir ∧ n1.data.collapsed then
      (NTree.mk { n1.data with collapsed := false } n1.children, true)
    else (n1, st.snd)

/-- The child loop of `FileTreeNode.expand`:
`self.get_child(name, quasi=True).expand()` for every filesystem entry,
threading the children map and marking this node `collapsed=false` as soon
as a child's expansion raises the marking. -/
def expandKids (es : List (String × FsEnt)) (depth : Nat) (n : NTree) :
    NTree × Bool :=
  match es with
  | [] => (n, false)
  | (nm, e) :: rest =>
    let child := match childLookup nm n.children with
      | some c => c
      | none => newNode none true (depth + 1)
    let r := expandEnt e (depth + 1) child
    let cs' := match childLookup nm n.children with
      | some _ => childReplace nm r.fst n.children
      | none => n.children ++ [(nm, r.fst)]
    let d' := if r.snd then { n.data with collapsed := false } else n.data
    let r2 := expandKids rest depth (NTree.mk d' cs')
    (r2.fst, r.snd ∨ r2.snd)
end

/-- `expandEnt` lifted to the optional filesystem entry of the node's
path: a missing path is not a directory, so only the early return and
the `expanded := true` marking apply. -/
def expandSub (fsEnt : Option FsEnt) (depth : Nat) (n : NTree) :
    NTree × Bool :=
  match fsEnt with
  | some e => expandEnt e depth n
  | none =>
    if n.data.expanded ∨ n.data.visited then (n, false)
    else (NTree.mk { n.data with expanded := true } n.children, false)

/-- Set `collapsed := false` on every strict ancestor of `addr` (the
`for parent in self.ancestors(): parent.collapsed = False` loop). -/
def markUp (t : NTree) (addr : List String) : NTree :=
  (List.range addr.length).foldl
    (fun t i => updData t (addr.take i) (fun d => { d with collapsed := false }))
    t

/-- `FileTreeNode.expand` invoked on the node at an address. -/
def expandAt (fs : FsEnt) (rootP : String) (t : NTree) (addr : List String) :
    NTree :=
  match getN t addr with
  | none => t
  | some n =>
    let r := expandSub (fsFindPath fs (pathOf rootP addr)) addr.length n
    let t1 := updN t addr (fun _ => r.fst)
    if r.snd then markUp t1 addr else t1

mutual
/-- `FileTreeNode.descendants`: pre-order traversal of the unvisited
subtree, including the node itself, optionally excluding childless nodes;
addresses are returned relative to the node. -/
def descendantsSub (n : NTree) (excludeLeaves : Bool) : List (List String) :=
  match n with
  | NTree.mk d cs =>
    if d.visited then []
    else
      (if ¬ excludeLeaves ∨ ¬ cs.isEmpty then [[]] else []) ++
      descendantsKids cs excludeLeaves

/-- The child loop of `FileTreeNode.descendants`. -/
def descendantsKids (cs : List (String × NTree)) (excludeLeaves : Bool) :
    List (List String) :=
  match cs with
  | [] => []
  | (nm, c) :: rest =>
    (if ¬ c.data.visited then (descendantsSub c excludeLeaves).map (nm :: ·)
     else []) ++
    descendantsKids rest excludeLeaves
end

/-- `descendants()` of the node at an address, as absolute addresses. -/
def descendantsAt (t : NTree) (addr : List String) (excludeLeaves : Bool) :
    List (List String) :=
  match getN t addr with
  | none => []
  | some n => (descendantsSub n excludeLeaves).map (addr ++ ·)

/-- `FileTreeNode.ancestor(n)`: the nth strict ancestor, or the root when
fewer than `n` ancestors exist (the source walks `parent or cursor` n
times, which stalls at the root). -/
def ancestorAddr (addr : List String) (n : Nat) : List String :=
  addr.take (addr.length - n)

/-- Python's string falsiness in `group or self.group or DEFAULT_GROUP`:
an absent or empty string falls through to the alternative. -/
def strOr (a : Option String) (b : String) : String :=
  match a with
  | some s => if s = "" then b else s
  | none => b

/-- The number of consecutive `".."` segments at the head of a list. -/
def countDots : List String → Nat
  | ".." :: rest => 1 + countDots rest
  | _ => 0

/-- Drop later duplicates, as collecting node objects into a Python `set`
does (the subsequent sort makes the set's iteration order immaterial). -/
def dedup : List (List String) → List (List String)
  | [] => []
  | a :: rest => a :: (dedup rest).filter (· ≠ a)

/-- Python `<` on lists of strings: lexicographic, strings compared
pointwise. -/
def pyListLt : List String → List String → Bool
  | [], [] => false
  | [], _ :: _ => true
  | _ :: _, [] => false
  | a :: as, b :: bs =>
    if strLtChars a.toList b.toList then true
    else if strLtChars b.toList a.toList then false
    else pyListLt as bs

/-- Stable insertion sort by a strict-order key (Python `sorted`). -/
def insertSorted (lt : α → α → Bool) (x : α) : List α → List α
  | [] => [x]
  | y :: rest => if lt x y then x :: y :: rest else y :: insertSorted lt x rest

/-- Stable sort by a strict-order key (Python `sorted`). -/
def pySorted (lt : α → α → Bool) : List α → List α
  | [] => []
  | x :: rest => insertSorted lt x (pySorted lt rest)

/-- Increment a node's weight (`self.weight += 1`). -/
def incWeight (t : NTree) (addr : List String) : NTree :=
  updData t addr (fun d => { d with weight := d.weight + 1 })

/-- `parent.prune_guard += 1`. -/
def incGuard (t : NTree) (addr : List String) : NTree :=
  updData t addr (fun d => { d with prune_guard := d.prune_guard + 1 })

/-- `parent.prune_guard -= 1`. -/
def decGuard (t : NTree) (addr : List String) : NTree :=
  updData t addr (fun d => { d with prune_guard := d.prune_guard - 1 })

/-- The `groups` output: group name to path list, in insertion order. -/
abbrev Groups := List (String × List String)

/-- The state threaded through extended-glob evaluation: the tree, the
grouper's group lists (mutated by the consumer in distinct mode) and a
list of collected yields (used where the source materialises a generator
with `list(...)`, and to state theorems about what a pattern yields). -/
structure GSt where
  tree : NTree
  gs : Groups
  ys : List (List String)

/-- A consumer of the nodes yielded by `glob_children`.  The source is a
generator: each `yield` suspends and runs the caller's loop body on the
yielded node before evaluation continues, so the consumer's effects on
the tree are visible to the rest of the pattern evaluation.  The sink is
that loop body. -/
abbrev Sink := GSt → List String → GSt

/-- The sink corresponding to `list(generator)`: collect the yielded
addresses in order, touching nothing else. -/
def collectSink : Sink := fun st a => { st with ys := st.ys ++ [a] }

/-- The loop of `FileTreeNode.glob_nodes`: for each path produced by
`glob_root`, `locate` it (in the current tree) and hand any located node
to `k` (the yield). -/
def locFold (st : GSt) (base : List String) (paths : List String)
    (k : GSt → List String → GSt) : GSt :=
  paths.foldl
    (fun st p =>
      let r := locateAt st.tree base (split_path p)
      match r.snd with
      | some a => k { st with tree := r.fst } a
      | none => { st with tree := r.fst })
    st

mutual
/-- `FileTreeNode.glob_children` from `filetree.py`: increment this
node's weight, then process the `", "`-separated alternatives in order
(`globAlts`), feeding every yielded node to `sink`.  Recursion is
fueled; no call site below exhausts the fuel supplied. -/
def globChildren (fs : FsEnt) (rootP : String) (sink : Sink) (fuel : Nat)
    (st : GSt) (addr : List String) (rglob : String) (dirs_only : Bool) :
    GSt :=
  match fuel with
  | 0 => st
  | f + 1 =>
    globAlts fs rootP sink f { st with tree := incWeight st.tree addr }
      addr dirs_only (pySplit ", " rglob)

/-- The alternatives loop of `glob_children`.  For each alternative:
split into segments dropping `"."`; if nothing remains, yield self and
`return` (ending the whole generator); if `".."` occurs, run the parent
branch and `return`; if `"**"` occurs, run the recursive branch and
`return`; otherwise yield the `glob_nodes` of the alternative one by one
and continue with the next alternative. -/
def globAlts (fs : FsEnt) (rootP : String) (sink : Sink) (fuel : Nat)
    (st : GSt) (addr : List String) (dirs_only : Bool)
    (alts : List String) : GSt :=
  match fuel, alts with
  | 0, _ => st
  | _, [] => st
  | f + 1, glob_part :: rest =>
    let parts := (split_path glob_part).filter (· ≠ ".")
    if parts.isEmpty then sink st addr
    else if parts.contains ".." then
      let pi := parts.indexOf ".."
      let r1 : GSt × List (List String) :=
        if pi = 0 then (st, [addr])
        else
          let c := globChildren fs rootP collectSink f
            { st with ys := [] } addr
            (String.intercalate SEP (parts.take pi)) false
          ({ c with ys := st.ys }, c.ys)
      let n := countDots (parts.drop pi)
      let pi2 := pi + n
      let parents := pySorted
        (fun a b => pyListLt (split_path (pathOf rootP a))
                            (split_path (pathOf rootP b)))
        (dedup (r1.snd.map (fun a => ancestorAddr a n)))
      let t2 := parents.foldl incGuard r1.fst.tree
      let t3 := r1.snd.foldl pruneN t2
      let t4 := parents.foldl decGuard t3
      let st4 := { r1.fst with tree := t4 }
      let leftover := String.intercalate SEP (parts.drop pi2)
      if leftover ≠ "" then
        parents.foldl
          (fun st p => globChildren fs rootP sink f st p leftover dirs_only)
          st4
      else parents.foldl sink st4
    else if parts.contains "**" then
      let pi := parts.indexOf "**"
      let leftover := String.intercalate SEP (parts.drop (pi + 1))
      let act : Option String := if leftover = "" then none else some leftover
      if pi = 0 then descendGlob fs rootP sink f st addr act dirs_only
      else
        locFold st addr
          (glob_root fs (pathOf rootP addr)
            (String.intercalate SEP (parts.take pi)) false)
          (fun st nd => descendGlob fs rootP sink f st nd act dirs_only)
    else
      let st' := locFold st addr
        (glob_root fs (pathOf rootP addr) glob_part dirs_only) sink
      globAlts fs rootP sink f st' addr dirs_only rest

/-- One pre-part node of the `**` branch: `node.expand()`, then walk
`node.descendants()` with the consumer running between steps (the
generator reads each node's children when it resumes, so the consumer's
mutations are visible).  With `act = some leftover` every unvisited
descendant is globbed with the leftover
(`descendant.glob_children(leftover, dirs_only)`); with `act = none` the
descendants themselves are yielded, skipping childless nodes when
`dirs_only` is set.  The walk is fueled one unit per tree level. -/
def descendGlob (fs : FsEnt) (rootP : String) (sink : Sink) (fuel : Nat)
    (st : GSt) (addr : List String) (act : Option String) (d : Bool) :
    GSt :=
  match fuel with
  | 0 => st
  | f + 1 =>
    let st0 := { st with tree := expandAt fs rootP st.tree addr }
    descendNode fs rootP sink f st0 addr act d

/-- The per-node step of the descendants walk (see `descendGlob`);
`expand()` has already run on the walk's base node. -/
def descendNode (fs : FsEnt) (rootP : String) (sink : Sink) (fuel : Nat)
    (st : GSt) (addr : List String) (act : Option String) (d : Bool) :
    GSt :=
  match fuel with
  | 0 => st
  | f + 1 =>
    match getN st.tree addr with
    | none => st
    | some n =>
      if n.data.visited then st
      else
        let st1 := match act with
          | some leftover => globChildren fs rootP sink f st addr leftover d
          | none =>
            if ¬ d ∨ ¬ n.children.isEmpty then sink st addr else st
        let names := match getN st1.tree addr with
          | some n' => n'.children.map Prod.fst
          | none => []
        descendKids fs rootP sink f st1 addr names act d

/-- The child loop of the descendants walk: look each name up in the
current tree and recurse into unvisited children. -/
def descendKids (fs : FsEnt) (rootP : String) (sink : Sink) (fuel : Nat)
    (st : GSt) (addr : List String) (names : List String)
    (act : Option String) (d : Bool) : GSt :=
  match fuel, names with
  | 0, _ => st
  | _, [] => st
  | f + 1, nm :: rest =>
    let st1 :=
      match getN st.tree (addr ++ [nm]) with
      | some c =>
        if ¬ c.data.visited then
          descendNode fs rootP sink f st (addr ++ [nm]) act d
        else st
      | none => st
    descendKids fs rootP sink f st1 addr rest act d
end

/-! ## Visiting -/

/-- `FileTreeNode.visit` from `filetree.py`, fueled (each recursion level
consumes one unit; with fuel `0` the call is the identity, and every call
site below supplies enough fuel to finish).  Return at once if visited;
otherwise observe, collapse, compute the effective group; a childless node
becomes a visited leaf carrying the group; otherwise visit the filesystem
children (creating missing ones already visited, via `get_child(name,
group)`), or the in-memory children when the listing is empty, and become
a visited, expanded, collapsed container without a group. -/
def visitAt (fs : FsEnt) (rootP : String) :
    Nat → NTree → List String → Option String → NTree
  | 0, t, _, _ => t
  | f + 1, t, addr, group =>
    match getN t addr with
    | none => t
    | some n =>
      if n.data.visited then t
      else
        let t1 := observeAt t addr
        let t2 := collapseAt t1 addr
        match getN t2 addr with
        | none => t2
        | some n2 =>
          let g := strOr group (strOr n2.data.group DEFAULT_GROUP)
          if n2.children.isEmpty then
            updData t2 addr (fun d =>
              { d with visited := true, group := some g })
          else
            let items := list_path fs (pathOf rootP addr)
            let t3 :=
              if ¬ items.isEmpty then
                items.foldl (fun t name =>
                  let t' := getChildAt t addr name (some g) none
                  visitAt fs rootP f t' (addr ++ [name]) (some g)) t2
              else
                (n2.children.map Prod.fst).foldl (fun t name =>
                  visitAt fs rootP f t (addr ++ [name]) (some g)) t2
            updData t3 addr (fun d =>
              { d with visited := true, expanded := true, collapsed := true,
                       group := none })

/-! ## The grouper -/

/-- The nested pattern map (`StrTree` in `grouper.py`): each key maps to a
group name or a nested map, in insertion order. -/
inductive StrTree where
  | str : String → StrTree
  | map : List (String × StrTree) → StrTree
deriving Repr

/-- Look up a key in a Python dict modelled as an ordered association
list. -/
def pyGet (dict : List (String × String)) (k : String) : Option String :=
  match dict with
  | [] => none
  | (k', v) :: rest => if k' = k then some v else pyGet rest k

/-- `d[k] = v` on a Python dict modelled as an ordered association list:
update in place when present, append otherwise. -/
def pySet (dict : List (String × String)) (k v : String) :
    List (String × String) :=
  match dict with
  | [] => [(k, v)]
  | (k', v') :: rest =>
    if k' = k then (k', v) :: rest else (k', v') :: pySet rest k v

/-- `FileGrouper.add_to_group`: relativise the path against the tree root
unless absolute mode is on or the root path is empty, then append it to
the named group's list (creating the group at the end on first use). -/
def addToGroup (rootP : String) (absolute : Bool) (gs : Groups)
    (group path : String) : Groups :=
  let p := if rootP ≠ "" ∧ ¬ absolute then relpath path rootP else path
  let rec go : Groups → Groups
    | [] => [(group, [p])]
    | (g, l) :: rest =>
      if g = group then (g, l ++ [p]) :: rest else (g, l) :: go rest
  go gs

/-- `DistinctFileTreeNode.visit` from `grouper.py`: observe and collapse,
return if a group is already set, otherwise set the group (never
`visited`) and immediately add the node's path to the grouper's named
group.

A missing address means the yielded node object was detached from the
tree by an earlier yield's consumer (a collapse removing a quasi
subtree, possible only for the materialised parents of the `..` branch).
Such a node is necessarily still ungrouped (grouped nodes are never
quasi, and guarded parents survive the prune transaction), so the source
runs the mutations invisibly on the detached fragment and still adds the
node's path to the group; only that addition is observable. -/
def distinctVisit (_fs : FsEnt) (rootP : String) (absolute : Bool)
    (t : NTree) (gs : Groups) (addr : List String) (group : Option String) :
    NTree × Groups :=
  match getN t addr with
  | none =>
    (t, addToGroup rootP absolute gs (strOr group DEFAULT_GROUP)
      (pathOf rootP addr))
  | some _ =>
    let t1 := observeAt t addr
    let t2 := collapseAt t1 addr
    match getN t2 addr with
    | none => (t2, gs)
    | some n2 =>
      if n2.data.group.isSome then (t2, gs)
      else
        let g := strOr group DEFAULT_GROUP
        (updData t2 addr (fun d => { d with group := some g }),
         addToGroup rootP absolute gs g (pathOf rootP addr))

/-- `FileGrouper.load`: walk the config entries in order.  A string value
is a group: visit every node the glob key yields, as it is yielded, with
the override-resolved group.  A map value scopes a nested config: match
directories only and, per yielded directory, load the nested config into
it and then visit it with the default group so sibling rules do not
re-visit it. -/
def load (fs : FsEnt) (rootP : String) (absolute distinct : Bool)
    (ovr : List (String × String)) (fuel : Nat) (st : GSt)
    (addr : List String) (config : List (String × StrTree)) : GSt :=
  match fuel, config with
  | 0, _ => st
  | _, [] => st
  | f + 1, (glob_key, StrTree.str s) :: rest =>
    let g := some ((pyGet ovr s).getD s)
    let st1 := globChildren fs rootP
      (fun st y =>
        if distinct then
          let r := distinctVisit fs rootP absolute st.tree st.gs y g
          { st with tree := r.fst, gs := r.snd }
        else { st with tree := visitAt fs rootP f st.tree y g })
      f st addr glob_key false
    load fs rootP absolute distinct ovr f st1 addr rest
  | f + 1, (glob_key, StrTree.map m) :: rest =>
    let st1 := globChildren fs rootP
      (fun st y =>
        let st2 := load fs rootP absolute distinct ovr f st y m
        if distinct then
          let r := distinctVisit fs rootP absolute st2.tree st2.gs y
            (some DEFAULT_GROUP)
          { st2 with tree := r.fst, gs := r.snd }
        else
          { st2 with
            tree := visitAt fs rootP f st2.tree y (some DEFAULT_GROUP) })
      f st addr glob_key true
    load fs rootP absolute distinct ovr f st1 addr rest

/-- `d[k] = v` on the weights `Counter`, modelled as an ordered
association list. -/
def pySetNat (dict : List (String × Nat)) (k : String) (v : Nat) :
    List (String × Nat) :=
  match dict with
  | [] => [(k, v)]
  | (k', v') :: rest =>
    if k' = k then (k', v) :: rest else (k', v') :: pySetNat rest k v

mutual
/-- `FileGrouper.walk`: record the node's weight under its (relative)
path; a node without a group recurses into its children, a grouped node
contributes its path to its group. -/
def walkN (rootP : String) (absolute : Bool) (n : NTree) (nodePath : String)
    (gs : Groups) (ws : List (String × Nat)) : Groups × List (String × Nat) :=
  match n with
  | NTree.mk d cs =>
    let key := if rootP ≠ "" ∧ ¬ absolute then relpath nodePath rootP
               else nodePath
    let ws1 := pySetNat ws key d.weight
    match d.group with
    | none => walkKids rootP absolute cs nodePath gs ws1
    | some g => (addToGroup rootP absolute gs g nodePath, ws1)

/-- The child loop of `FileGrouper.walk`. -/
def walkKids (rootP : String) (absolute : Bool)
    (cs : List (String × NTree)) (parentPath : String) (gs : Groups)
    (ws : List (String × Nat)) : Groups × List (String × Nat) :=
  match cs with
  | [] => (gs, ws)
  | (nm, c) :: rest =>
    let r := walkN rootP absolute c (abs_path parentPath nm) gs ws
    walkKids rootP absolute rest parentPath r.fst r.snd
end

/-- Sort each group's path list by `split_path` order
(`group.sort(key=lambda p: split_path(p))`). -/
def sortGroups (gs : Groups) : Groups :=
  gs.map (fun (gl : String × List String) =>
    (gl.fst,
     pySorted (fun a b => pyListLt (split_path a) (split_path b)) gl.snd))

/-- The engine's output: the final tree, the group lists and the weight
counter. -/
structure GrouperOut where
  tree : NTree
  groups : Groups
  weights : List (String × Nat)

/-- `FileGrouper.__init__` from `grouper.py`: build the root node, force
the default-group override, load the config; when not in distinct mode,
visit the root to catch stragglers and walk the tree into the group
lists; finally sort every group by path segments.  (`cwd` stands for
`os.getcwd()` at root-node construction.) -/
def fileGrouper (fs : FsEnt) (cwd root : String)
    (config : List (String × StrTree)) (absolute distinct : Bool)
    (overrides : List (String × String)) (fuel : Nat) : GrouperOut :=
  let rootP := abs_path cwd root
  let t0 : NTree := NTree.mk
    { group := none, visited := false, expanded := false, collapsed := true,
      quasi := false, prune_guard := 0, weight := 0 } []
  let ovr := pySet overrides DEFAULT_GROUP DEFAULT_GROUP
  let st := load fs rootP absolute distinct ovr fuel
    { tree := t0, gs := [], ys := [] } [] config
  if distinct then
    { tree := st.tree, groups := sortGroups st.gs, weights := [] }
  else
    let t2 := visitAt fs rootP fuel st.tree [] none
    let r := walkN rootP absolute t2 rootP st.gs []
    { tree := t2, groups := sortGroups r.fst, weights := r.snd }

/-! ## Python default-argument aliasing (for `FileGrouper.__init__`) -/

/-- Modelled from Python semantics: a heap of dictionaries.  A dict-typed
argument is a reference (an index) into the heap, and `d[k] = v` mutates
the referenced cell in place. -/
abbrev PyStore := List (List (String × String))

/-- The overrides mutation performed by `FileGrouper.__init__`:
`self.overrides = overrides` followed by
`self.overrides[DEFAULT_GROUP] = DEFAULT_GROUP` — a single in-place
update of the caller's dict; the mapping is not copied. -/
def grouperInitOverrides (store : PyStore) (ovrRef : Nat) : PyStore :=
  store.set ovrRef (pySet (store.getD ovrRef []) DEFAULT_GROUP DEFAULT_GROUP)

/-- Modelled from Python semantics: the default value `{}` of the
`overrides` parameter of `group()` / `FileGrouper.__init__` is evaluated
once, at function definition time, and that same dict is passed to every
call that omits the argument; cell `0` of the store stands for it and
holds `[]` when the module has just been loaded. -/
def groupCallDefaultOverrides (store : PyStore) : PyStore :=
  grouperInitOverrides store 0

/-! # Theorems

One theorem (plus witness or counterexample where required) per claim of
the specification, with shared helper lemmas. -/

/-- A tiny filesystem used by concrete witnesses: `/r` contains the file
`a` and the directory `d` holding the file `b`. -/
def fsW : FsEnt :=
  FsEnt.dir [("r", FsEnt.dir [("a", FsEnt.file),
    ("d", FsEnt.dir [("b", FsEnt.file)])])]

/-- A fresh, unvisited root node as `FileGrouper.__init__` creates it. -/
def rootNode : NTree :=
  NTree.mk
    { group := none, visited := false, expanded := false, collapsed := true,
      quasi := false, prune_guard := 0, weight := 0 } []

/-- C8 counterexample: with the empty root *and* the literally empty
pattern, `glob_root` yields nothing — the claimed sentinel emission does
not happen (the function returns before the empty-root check). -/
theorem glob_root_empty_empty_counterexample :
    glob_root fsW "" "" false = [] ∧
    glob_root fsW "" "" false ≠ [DEFAULT_PATH] := by
  constructor
  · rfl
  · intro h
    simp [glob_root, DEFAULT_PATH] at h

/-- C8 (amended): an empty pattern yields nothing for every root; the
sentinel root path is emitted exactly once only for a nonempty pattern
that strips to nothing (separators only) at the empty root; such a
pattern at a nonempty root yields nothing. -/
theorem glob_root_empty_pattern (fs : FsEnt) (root p : String)
    (dirs_only : Bool) :
    glob_root fs root "" dirs_only = [] ∧
    (p ≠ "" → strip_path p = "" →
      glob_root fs "" p dirs_only = [DEFAULT_PATH]) ∧
    (p ≠ "" → strip_path p = "" → root ≠ "" →
      glob_root fs root p dirs_only = []) := by
  refine ⟨rfl, fun hp hs => ?_, fun hp hs hr => ?_⟩
  · simp [glob_root, hp, hs]
  · simp [glob_root, hp, hs, hr]

/-- C8 witness. -/
theorem glob_root_empty_pattern_witness :
    glob_root fsW "" "//" false = [DEFAULT_PATH] ∧
    glob_root fsW "/r" "//" false = [] := by
  refine ⟨(glob_root_empty_pattern fsW "" "//" false).2.1 (by decide) ?_,
          (glob_root_empty_pattern fsW "/r" "//" false).2.2 (by decide) ?_
            (by decide)⟩ <;> decide

/-- C9: `list_path` is total and absorbs every failure: the empty path
gives an empty listing, a readable directory gives its child names
unsorted (in listing order), and every `os.listdir` error — missing
path, regular file, unreadable directory — is absorbed into an empty
listing rather than raised. -/
theorem list_path_total (fs : FsEnt) (p : String) :
    (p = "" → list_path fs p = []) ∧
    (∀ es, p ≠ "" → fsFindPath fs p = some (FsEnt.dir es) →
      list_path fs p = es.map Prod.fst) ∧
    (∀ e, osListdir fs p = Except.error e → list_path fs p = []) := by
  refine ⟨fun h => by simp [list_path, h], fun es hp hf => ?_, fun e he => ?_⟩
  · simp [list_path, hp, osListdir, hf]
  · by_cases hp : p = ""
    · simp [list_path, hp]
    · simp [list_path, hp, he]

/-- C9 witness: a directory listing, the empty path, a missing path, a
file, and an unreadable directory. -/
theorem list_path_total_witness :
    list_path fsW "/r/d" = ["b"] ∧ list_path fsW "" = [] ∧
    list_path fsW "/nope" = [] ∧ list_path fsW "/r/a" = [] := by
  refine ⟨(list_path_total fsW "/r/d").2.1 [("b", FsEnt.file)] (by decide)
      rfl,
    (list_path_total fsW "").1 rfl,
    (list_path_total fsW "/nope").2.2 () rfl,
    (list_path_total fsW "/r/a").2.2 () rfl⟩

/-- Looking up the key just set by `pySet`. -/
theorem pyGet_pySet (d : List (String × String)) (k v : String) :
    pyGet (pySet d k v) k = some v := by
  induction d with
  | nil => simp [pySet, pyGet]
  | cons hd tl ih =>
    by_cases h : hd.fst = k <;> simp [pySet, pyGet, h, ih]

/-- Setting a key twice to the same value is the same as setting it
once. -/
theorem pySet_idem (d : List (String × String)) (k v : String) :
    pySet (pySet d k v) k v = pySet d k v := by
  induction d with
  | nil => simp [pySet]
  | cons hd tl ih =>
    by_cases h : hd.fst = k <;> simp [pySet, h, ih]

/-- C10: constructing a `FileGrouper` mutates the caller-supplied
overrides dict in place: afterwards the caller's own dict (the same heap
cell, no copy is made) maps the default group name to itself, and every
other heap cell is untouched.  Because the default value of the
`overrides` parameter is one shared dict created at definition time,
the mutation persists across constructions that omit the argument: a
second such construction finds, and keeps, the entry the first one
inserted, leaving the shared cell unchanged. -/
theorem grouper_init_mutates_overrides (store : PyStore) (r : Nat)
    (h : r < store.length) :
    (pyGet ((grouperInitOverrides store r).getD r []) DEFAULT_GROUP =
      some DEFAULT_GROUP) ∧
    (∀ i, i ≠ r → (grouperInitOverrides store r).getD i [] =
      store.getD i []) ∧
    (groupCallDefaultOverrides (groupCallDefaultOverrides store) =
      groupCallDefaultOverrides store) := by
  refine ⟨?_, fun i hi => ?_, ?_⟩
  · have : (grouperInitOverrides store r).getD r [] =
        pySet (store.getD r []) DEFAULT_GROUP DEFAULT_GROUP := by
      unfold grouperInitOverrides
      rw [List.getD_eq_getElem?_getD, List.getElem?_set_self (by omega)]
      simp
    rw [this, pyGet_pySet]
  · unfold grouperInitOverrides
    rw [List.getD_eq_getElem?_getD, List.getElem?_set_ne (by omega),
      List.getD_eq_getElem?_getD]
  · unfold groupCallDefaultOverrides grouperInitOverrides
    cases store with
    | nil => rfl
    | cons c rest => simp [pySet_idem]

/-- C10 witness. -/
theorem grouper_init_mutates_overrides_witness :
    (pyGet ((grouperInitOverrides [[("x", "y")]] 0).getD 0 [])
      DEFAULT_GROUP = some DEFAULT_GROUP) ∧
    (∀ i, i ≠ 0 → (grouperInitOverrides [[("x", "y")]] 0).getD i [] =
      [[("x", "y")]].getD i []) ∧
    (groupCallDefaultOverrides (groupCallDefaultOverrides [[("x", "y")]]) =
      groupCallDefaultOverrides [[("x", "y")]]) :=
  grouper_init_mutates_overrides [[("x", "y")]] 0 (by decide)

/-! ## Weight accounting (C5, C6) -/

mutual
/-- The total weight held in a subtree. -/
def totalWeight : NTree → Nat
  | NTree.mk d cs => d.weight + totalWeightKids cs

/-- The total weight held in a children list. -/
def totalWeightKids : List (String × NTree) → Nat
  | [] => 0
  | (_, c) :: rest => totalWeight c + totalWeightKids rest
end

/-- Removing a child splits off exactly its subtree weight. -/
theorem totalWeightKids_childRemove (nm : String)
    (cs : List (String × NTree)) (c : NTree)
    (h : childLookup nm cs = some c) :
    totalWeightKids cs = totalWeight c + totalWeightKids (childRemove nm cs) := by
  induction cs with
  | nil => simp [childLookup] at h
  | cons hd tl ih =>
    obtain ⟨n0, c0⟩ := hd
    by_cases hn : n0 = nm
    · subst hn
      simp [childLookup] at h
      subst h
      simp [childRemove, totalWeightKids]
    · simp [childLookup, hn] at h
      simp [childRemove, hn, totalWeightKids, ih h]
      omega

/-- Replacing a child swaps exactly its subtree weight. -/
theorem totalWeightKids_childReplace (nm : String)
    (cs : List (String × NTree)) (c c' : NTree)
    (h : childLookup nm cs = some c) :
    totalWeightKids (childReplace nm c' cs) + totalWeight c =
      totalWeightKids cs + totalWeight c' := by
  induction cs with
  | nil => simp [childLookup] at h
  | cons hd tl ih =>
    obtain ⟨n0, c0⟩ := hd
    by_cases hn : n0 = nm
    · subst hn
      simp [childLookup] at h
      subst h
      simp [childReplace, totalWeightKids]
      omega
    · simp [childLookup, hn] at h
      simp [childReplace, hn, totalWeightKids]
      have := ih h
      omega

/-- The first-occurrence consistency of lookup after replace. -/
theorem childLookup_childReplace (nm : String)
    (cs : List (String × NTree)) (c c' : NTree)
    (h : childLookup nm cs = some c) :
    childLookup nm (childReplace nm c' cs) = some c' := by
  induction cs with
  | nil => simp [childLookup] at h
  | cons hd tl ih =>
    obtain ⟨n0, c0⟩ := hd
    by_cases hn : n0 = nm
    · subst hn
      simp [childReplace, childLookup]
    · simp [childLookup, hn] at h
      simp [childReplace, childLookup, hn, ih h]

/-- Reading back through an in-place update at the same address. -/
theorem getN_updN (pa : List String) (t : NTree) (f : NTree → NTree)
    (par : NTree) (h : getN t pa = some par) :
    getN (updN t pa f) pa = some (f par) := by
  induction pa generalizing t with
  | nil =>
    simp [getN] at h
    subst h
    simp [getN, updN]
  | cons a pa' ih =>
    obtain ⟨d, cs⟩ := t
    simp only [getN] at h
    cases hl : childLookup a cs with
    | none => rw [hl] at h; exact absurd h (by simp)
    | some c =>
      rw [hl] at h
      simp only [updN, hl, getN]
      rw [childLookup_childReplace a cs c _ hl]
      exact ih c h

/-- Reading a child through an address extension. -/
theorem getN_append_one (pa : List String) (nm : String) (t : NTree) :
    getN t (pa ++ [nm]) =
      (getN t pa).bind (fun par => childLookup nm par.children) := by
  induction pa generalizing t with
  | nil =>
    obtain ⟨d, cs⟩ := t
    simp only [List.nil_append, getN, Option.bind, NTree.children]
    cases childLookup nm cs <;> simp [getN]
  | cons a pa' ih =>
    obtain ⟨d, cs⟩ := t
    simp only [List.cons_append, getN]
    cases childLookup a cs <;> simp [ih]

/-- A locally weight-preserving update preserves the total weight. -/
theorem totalWeight_updN (pa : List String) (t : NTree) (f : NTree → NTree)
    (h : ∀ sub, getN t pa = some sub → totalWeight (f sub) = totalWeight sub) :
    totalWeight (updN t pa f) = totalWeight t := by
  induction pa generalizing t with
  | nil =>
    obtain ⟨d, cs⟩ := t
    have := h (NTree.mk d cs) (by simp [getN])
    simpa [updN] using this
  | cons a pa' ih =>
    obtain ⟨d, cs⟩ := t
    cases hl : childLookup a cs with
    | none => simp [updN, hl]
    | some c =>
      simp only [updN, hl, totalWeight]
      have hrepl := totalWeightKids_childReplace a cs c (updN c pa' f) hl
      have hih : totalWeight (updN c pa' f) = totalWeight c := by
        apply ih
        intro sub hs
        apply h
        simp [getN, hl, hs]
      omega

/-- A single prune step conserves total weight. -/
theorem prune_step_total (pa : List String) (nm : String) (t n : NTree)
    (h : getN t (pa ++ [nm]) = some n) (hc : n.children = []) :
    totalWeight (updN t pa (fun par =>
      NTree.mk { par.data with weight := par.data.weight + n.data.weight }
        (childRemove nm par.children))) = totalWeight t := by
  apply totalWeight_updN
  intro par hpar
  rw [getN_append_one, hpar] at h
  simp only [Option.bind] at h
  obtain ⟨pd, pcs⟩ := par
  obtain ⟨nd, ncs⟩ := n
  simp only [NTree.children] at h hc
  subst hc
  have hrm := totalWeightKids_childRemove nm pcs _ h
  simp only [totalWeight, NTree.data, NTree.children, totalWeightKids] at hrm ⊢
  omega

/-- The prune cascade conserves total weight over any list of nonempty
addresses. -/
theorem pruneChain_total (ps : List (List String)) (t : NTree)
    (h : ∀ p ∈ ps, p ≠ []) :
    totalWeight (pruneChain t ps) = totalWeight t := by
  induction ps generalizing t with
  | nil => rfl
  | cons p rest ih =>
    have hp : p ≠ [] := h p (by simp)
    show totalWeight (pruneChain t (p :: rest)) = totalWeight t
    rw [pruneChain]
    cases hg : getN t p with
    | none => simp [hg]
    | some n =>
      simp only [hg]
      split
      · rfl
      · next hcond =>
        have hch : n.children = [] := by
          by_contra hne
          exact hcond (Or.inr (Or.inl (by simpa [List.isEmpty_iff] using hne)))
        have hglast : p.getLastD "" = p.getLast hp := by
          rw [List.getLastD_eq_getLast?, List.getLast?_eq_getLast _ hp]
          rfl
        have hsplit : p.dropLast ++ [p.getLastD ""] = p := by
          rw [hglast]
          exact List.dropLast_append_getLast hp
        rw [ih _ (fun q hq => h q (by simp [hq]))]
        exact prune_step_total p.dropLast (p.getLastD "") t n
          (by rw [hsplit]; exact hg) hch

/-- `prune()` itself conserves total weight, whatever cascades it
triggers. -/
theorem pruneN_total (t : NTree) (addr : List String) :
    totalWeight (pruneN t addr) = totalWeight t := by
  apply pruneChain_total
  intro p hp
  simp only [List.mem_map, List.mem_reverse, List.mem_range] at hp
  obtain ⟨i, hi, rfl⟩ := hp
  intro hnil
  rw [List.take_eq_nil_iff] at hnil
  rcases hnil with h | h
  · exact absurd h (by omega)
  · subst h; simp at hi

/-- C5: total weight is conserved by `prune()` (cascades included), and
when the cascade stops at the parent — it keeps other children, is
visited or guarded, or is the root — the parent's weight has increased
by exactly the pruned child's weight. -/
theorem prune_conserves_weight :
    (∀ (t : NTree) (addr : List String),
      totalWeight (pruneN t addr) = totalWeight t) ∧
    (∀ (t : NTree) (addr : List String) (child par : NTree),
      addr ≠ [] → getN t addr = some child →
      child.data.prune_guard = 0 → child.children = [] →
      child.data.visited = false →
      getN t addr.dropLast = some par →
      ((childRemove (addr.getLastD "") par.children ≠ [] ∨
        par.data.visited = true ∨ 0 < par.data.prune_guard) ∨
        addr.dropLast = []) →
      getN (pruneN t addr) addr.dropLast =
        some (NTree.mk
          { par.data with weight := par.data.weight + child.data.weight }
          (childRemove (addr.getLastD "") par.children))) := by
  refine ⟨pruneN_total, ?_⟩
  intro t addr child par hne hc hg hch hv hp hstop
  have hlen : 0 < addr.length := List.length_pos.mpr hne
  set m := addr.length - 1 with hm
  have hk : addr.length = m + 1 := by omega
  have hlist : (List.range addr.length).reverse.map
      (fun i => addr.take (i + 1)) =
      addr :: (List.range m).reverse.map (fun i => addr.take (i + 1)) := by
    rw [hk, List.range_succ, List.reverse_append, List.reverse_singleton,
      List.singleton_append, List.map_cons, ← hk, List.take_length]
  unfold pruneN
  rw [hlist, pruneChain]
  simp only [hc]
  rw [if_neg (by simp [hg, hch, hv])]
  by_cases hm0 : m = 0
  · have hpa : addr.dropLast = [] := by
      rw [List.dropLast_eq_take]
      have : addr.length - 1 = 0 := by omega
      simp [this]
    rw [hm0]
    simp only [List.range_zero, List.reverse_nil, List.map_nil, pruneChain]
    rw [hpa]
    exact getN_updN [] t _ par (by rw [← hpa]; exact hp)
  · have hm1 : m = (m - 1) + 1 := by omega
    have hlist2 : (List.range m).reverse.map (fun i => addr.take (i + 1)) =
        addr.dropLast ::
          (List.range (m - 1)).reverse.map (fun i => addr.take (i + 1)) := by
      rw [hm1, List.range_succ, List.reverse_append, List.reverse_singleton,
        List.singleton_append, List.map_cons, ← hm1, List.dropLast_eq_take,
        hm]
    rw [hlist2, pruneChain]
    have hget := getN_updN addr.dropLast t (fun p2 =>
      NTree.mk { p2.data with weight := p2.data.weight + child.data.weight }
        (childRemove (addr.getLastD "") p2.children)) par hp
    simp only [hget]
    rw [if_pos]
    · exact hget
    · simp only [NTree.data, NTree.children]
      rcases hstop with (hc1 | hc2 | hc3) | hpa
      · exact Or.inr (Or.inl (by simpa [List.isEmpty_iff] using hc1))
      · exact Or.inr (Or.inr hc2)
      · exact Or.inl hc3
      · exfalso
        rw [List.dropLast_eq_take] at hpa
        rw [List.take_eq_nil_iff] at hpa
        rcases hpa with h1 | h1
        · omega
        · exact hne h1

/-- A tree used by the C5 witness: the root holds `a`, which holds the
prunable leaf `b` (weight 2) and another child `c`. -/
def tPrune : NTree :=
  NTree.mk
    { group := none, visited := false, expanded := false, collapsed := true,
      quasi := false, prune_guard := 0, weight := 0 }
    [("a", NTree.mk
      { group := none, visited := false, expanded := false, collapsed := true,
        quasi := false, prune_guard := 0, weight := 1 }
      [("b", NTree.mk
        { group := none, visited := false, expanded := false,
          collapsed := true, quasi := false, prune_guard := 0, weight := 2 }
        []),
       ("c", NTree.mk
        { group := none, visited := false, expanded := false,
          collapsed := true, quasi := false, prune_guard := 0, weight := 3 }
        [])])]

/-- C5 witness: pruning `a/b` conserves the total weight and adds the
leaf's weight 2 to its parent `a`. -/
theorem prune_conserves_weight_witness :
    totalWeight (pruneN tPrune ["a", "b"]) = totalWeight tPrune ∧
    getN (pruneN tPrune ["a", "b"]) ["a"] =
      some (NTree.mk
        { group := none, visited := false, expanded := false,
          collapsed := true, quasi := false, prune_guard := 0, weight := 3 }
        [("c", NTree.mk
          { group := none, visited := false, expanded := false,
            collapsed := true, quasi := false, prune_guard := 0, weight := 3 }
          [])]) := by
  constructor
  · exact prune_conserves_weight.1 tPrune ["a", "b"]
  · have := prune_conserves_weight.2 tPrune ["a", "b"]
      (NTree.mk
        { group := none, visited := false, expanded := false,
          collapsed := true, quasi := false, prune_guard := 0, weight := 2 }
        [])
      (NTree.mk
        { group := none, visited := false, expanded := false,
          collapsed := true, quasi := false, prune_guard := 0, weight := 1 }
        [("b", NTree.mk
          { group := none, visited := false, expanded := false,
            collapsed := true, quasi := false, prune_guard := 0, weight := 2 }
          []),
         ("c", NTree.mk
          { group := none, visited := false, expanded := false,
            collapsed := true, quasi := false, prune_guard := 0, weight := 3 }
          [])])
      (by decide) rfl rfl rfl rfl rfl
      (Or.inl (Or.inl (by simp [childRemove])))
    simpa [childRemove] using this

/-- The summed weights of the direct quasi children. -/
def sumQuasiW : List (String × NTree) → Nat
  | [] => 0
  | (_, c) :: rest =>
    (if c.data.quasi then c.data.weight else 0) + sumQuasiW rest

/-- `collapseSub` keeps the node's own `quasi` flag. -/
theorem collapseSub_quasi (n : NTree) :
    (collapseSub n).data.quasi = n.data.quasi := by
  obtain ⟨d, cs⟩ := n
  rw [collapseSub]
  split
  · rfl
  · rfl

/-- The child loop of `collapse` accumulates exactly the direct quasi
children's own weights, and keeps exactly the non-quasi children (in
order, under their names). -/
theorem collapseKids_spec (cs : List (String × NTree)) :
    (collapseKids cs).fst = sumQuasiW cs ∧
    (collapseKids cs).snd.map Prod.fst =
      (cs.filter (fun c => ! c.snd.data.quasi)).map Prod.fst := by
  induction cs with
  | nil => simp [collapseKids, sumQuasiW]
  | cons hd rest ih =>
    obtain ⟨nm, c⟩ := hd
    rw [collapseKids]
    by_cases hq : c.data.quasi
    · simp only [hq, if_true, sumQuasiW, List.filter_cons]
      simp [hq, ih.1, ih.2]
    · by_cases hcol : c.data.collapsed
      · simp only [sumQuasiW, List.filter_cons]
        simp [hq, hcol, ih.1, ih.2]
      · simp only [sumQuasiW, List.filter_cons]
        simp [hq, hcol, ih.1, ih.2]

/-- C6 (amended): on a non-collapsed, unvisited node, `collapse()` folds
into the node's weight exactly the sum of the *direct* quasi children's
own weights, removes each quasi child together with its entire subtree
(whose deeper weights are discarded, not folded), keeps exactly the
non-quasi children, and marks the node collapsed. -/
theorem collapse_folds_direct_quasi_weights (d : NData)
    (cs : List (String × NTree)) (h1 : d.collapsed = false)
    (h2 : d.visited = false) :
    (collapseSub (NTree.mk d cs)).data.weight = d.weight + sumQuasiW cs ∧
    (collapseSub (NTree.mk d cs)).data.collapsed = true ∧
    (collapseSub (NTree.mk d cs)).children.map Prod.fst =
      (cs.filter (fun c => ! c.snd.data.quasi)).map Prod.fst := by
  rw [collapseSub]
  rw [if_neg (by simp [h1, h2])]
  have hk := collapseKids_spec cs
  refine ⟨?_, rfl, ?_⟩
  · simp [NTree.data, hk.1]
  · simp [NTree.children, hk.2]

/-- The filesystem for the C6 counterexample: `/r/c/g`, a directory
inside the root holding one file. -/
def fsQ : FsEnt :=
  FsEnt.dir [("r", FsEnt.dir [("c", FsEnt.dir [("g", FsEnt.file)])])]

/-- C6 counterexample: after `expand()`, the quasi child `c` (weight 1)
holds the quasi grandchild `g` (weight 2), and the tree carries total
weight 3; the `collapse()` run by visiting the root folds only `c`'s own
weight into the root and discards `g`'s weight entirely — the total
drops to 1, so weight carried by quasi grandchildren *is* lost. -/
theorem collapse_loses_quasi_grandchild_weight :
    (getN (expandAt fsQ "/r" rootNode []) ["c", "g"]).map
      (fun n => (n.data.quasi, n.data.weight)) = some (true, 2) ∧
    totalWeight (expandAt fsQ "/r" rootNode []) = 3 ∧
    totalWeight (visitAt fsQ "/r" 5 (expandAt fsQ "/r" rootNode []) [] none)
      = 1 := by
  refine ⟨by decide, by decide, by decide⟩

/-- C6 witness: a node with a quasi child of weight 1 (holding a quasi
grandchild of weight 2) and a non-quasi child. -/
theorem collapse_folds_direct_quasi_weights_witness :
    (collapseSub (NTree.mk
      { group := none, visited := false, expanded := true, collapsed := false,
        quasi := false, prune_guard := 0, weight := 10 }
      [("c", NTree.mk
        { group := none, visited := false, expanded := true,
          collapsed := false, quasi := true, prune_guard := 0, weight := 1 }
        [("g", NTree.mk
          { group := none, visited := false, expanded := true,
            collapsed := true, quasi := true, prune_guard := 0, weight := 2 }
          [])]),
       ("k", NTree.mk
        { group := none, visited := false, expanded := false,
          collapsed := true, quasi := false, prune_guard := 0, weight := 4 }
        [])])).data.weight = 10 + sumQuasiW
        [("c", NTree.mk
          { group := none, visited := false, expanded := true,
            collapsed := false, quasi := true, prune_guard := 0, weight := 1 }
          [("g", NTree.mk
            { group := none, visited := false, expanded := true,
              collapsed := true, quasi := true, prune_guard := 0, weight := 2 }
            [])]),
         ("k", NTree.mk
          { group := none, visited := false, expanded := false,
            collapsed := true, quasi := false, prune_guard := 0, weight := 4 }
          [])] :=
  (collapse_folds_direct_quasi_weights _ _ rfl rfl).1

/-- C1 counterexample: in the pattern `"., a"` the first alternative
reduces to no segments, so `glob_children` yields self and returns; the
second alternative `"a"` — which on its own matches and yields the node
`a` — is never evaluated, against the claim that every alternative is. -/
theorem glob_alternation_counterexample :
    (globChildren fsW "/r" collectSink 10
      { tree := rootNode, gs := [], ys := [] } [] "., a" false).ys = [[]] ∧
    (globChildren fsW "/r" collectSink 10
      { tree := rootNode, gs := [], ys := [] } [] "a" false).ys = [["a"]] ∧
    ["a"] ∉ (globChildren fsW "/r" collectSink 10
      { tree := rootNode, gs := [], ys := [] } [] "., a" false).ys := by
  refine ⟨by decide, by decide, by decide⟩

/-- C1 (amended): the alternatives loop stops after the first special
alternative: one whose segments (after dropping `.`) are empty — self is
yielded and the whole evaluation returns — or one containing `..` or
`**`, whose branch runs and then the whole evaluation returns; the
remaining alternatives are never evaluated, exactly as if the pattern
had ended there.  Only a plain alternative continues with the next one,
after yielding its own matches. -/
theorem glob_alternation_stops_after_special (fs : FsEnt) (rootP : String)
    (sink : Sink) (f : Nat) (st : GSt) (addr : List String) (d : Bool)
    (alt : String) (rest : List String) :
    ((((split_path alt).filter (· ≠ ".")).isEmpty ∨
      ((split_path alt).filter (· ≠ ".")).contains ".." ∨
      ((split_path alt).filter (· ≠ ".")).contains "**") →
      globAlts fs rootP sink (f + 1) st addr d (alt :: rest) =
        globAlts fs rootP sink (f + 1) st addr d [alt]) ∧
    (¬ ((split_path alt).filter (· ≠ ".")).isEmpty →
      ¬ ((split_path alt).filter (· ≠ ".")).contains ".." →
      ¬ ((split_path alt).filter (· ≠ ".")).contains "**" →
      globAlts fs rootP sink (f + 1) st addr d (alt :: rest) =
        globAlts fs rootP sink f
          (locFold st addr (glob_root fs (pathOf rootP addr) alt d) sink)
          addr d rest) := by
  constructor
  · intro hspec
    by_cases h1 : ((split_path alt).filter (· ≠ ".")).isEmpty
    · rw [globAlts, globAlts]
      simp only [h1, if_true]
    · by_cases h2 : ((split_path alt).filter (· ≠ ".")).contains ".."
      · rw [globAlts, globAlts]
        simp only [h1, h2, if_true, if_false, Bool.false_eq_true]
      · have h3 : ((split_path alt).filter (· ≠ ".")).contains "**" := by
          rcases hspec with h | h | h
          · exact absurd h h1
          · exact absurd h h2
          · exact h
        rw [globAlts, globAlts]
        simp only [h1, h2, h3, if_true, if_false, Bool.false_eq_true]
  · intro h1 h2 h3
    rw [globAlts]
    simp only [h1, h2, h3, if_false, Bool.false_eq_true]

/-- C1 amended-claim witness: with the pattern alternatives
`["..", "x"]` the evaluation equals the one of `[".."]` alone, and a
plain alternative `"a"` continues to the next. -/
theorem glob_alternation_stops_after_special_witness :
    globAlts fsW "/r" collectSink 6
      { tree := rootNode, gs := [], ys := [] } [] false ["..", "x"] =
      globAlts fsW "/r" collectSink 6
        { tree := rootNode, gs := [], ys := [] } [] false [".."] ∧
    globAlts fsW "/r" collectSink 6
      { tree := rootNode, gs := [], ys := [] } [] false ["a", "x"] =
      globAlts fsW "/r" collectSink 5
        (locFold { tree := rootNode, gs := [], ys := [] } []
          (glob_root fsW (pathOf "/r" []) "a" false) collectSink)
        [] false ["x"] :=
  ⟨(glob_alternation_stops_after_special fsW "/r" collectSink 5
      { tree := rootNode, gs := [], ys := [] } [] false ".." ["x"]).1
      (Or.inr (Or.inl (by decide))),
   (glob_alternation_stops_after_special fsW "/r" collectSink 5
      { tree := rootNode, gs := [], ys := [] } [] false "a" ["x"]).2
      (by decide) (by decide) (by decide)⟩

/-! ## Address algebra (shared by C7, C3, C4) -/

/-- Reading through an address concatenation. -/
theorem getN_append (p q : List String) (t : NTree) :
    getN t (p ++ q) = (getN t p).bind (fun n => getN n q) := by
  induction p generalizing t with
  | nil => simp [getN]
  | cons a p' ih =>
    obtain ⟨d, cs⟩ := t
    simp only [List.cons_append, getN]
    cases childLookup a cs <;> simp [ih]

/-- A node's own state is irrelevant to lookups strictly below it. -/
theorem getN_data_irrel (d1 d2 : NData) (cs : List (String × NTree))
    (s : List String) (h : s ≠ []) :
    getN (NTree.mk d1 cs) s = getN (NTree.mk d2 cs) s := by
  cases s with
  | nil => exact absurd rfl h
  | cons a s' => simp [getN]

/-- Lookup is untouched by replacing a different key. -/
theorem childLookup_childReplace_ne (a b : String) (c' : NTree)
    (cs : List (String × NTree)) (h : a ≠ b) :
    childLookup a (childReplace b c' cs) = childLookup a cs := by
  induction cs with
  | nil => simp [childReplace, childLookup]
  | cons hd tl ih =>
    obtain ⟨n0, c0⟩ := hd
    by_cases hb : n0 = b
    · subst hb
      simp [childReplace, childLookup, Ne.symm h]
    · simp [childReplace, childLookup, hb, ih]

/-- Replacing a child with itself changes nothing. -/
theorem childReplace_self (a : String) (c : NTree)
    (cs : List (String × NTree)) (h : childLookup a cs = some c) :
    childReplace a c cs = cs := by
  induction cs with
  | nil => rfl
  | cons hd tl ih =>
    obtain ⟨n0, c0⟩ := hd
    by_cases hb : n0 = a
    · subst hb
      simp [childLookup] at h
      simp [childReplace, h]
    · simp [childLookup, hb] at h
      simp [childReplace, hb, ih h]

/-- Updating a missing address is a no-op. -/
theorem updN_none (p : List String) (t : NTree) (f : NTree → NTree)
    (h : getN t p = none) : updN t p f = t := by
  induction p generalizing t with
  | nil => simp [getN] at h
  | cons a p' ih =>
    obtain ⟨d, cs⟩ := t
    simp only [getN] at h
    cases hl : childLookup a cs with
    | none => simp [updN, hl]
    | some c =>
      rw [hl] at h
      simp only [updN, hl]
      rw [ih c h, childReplace_self a c cs hl]

/-- Replacing the same key twice keeps only the last replacement. -/
theorem childReplace_childReplace (a : String) (x y : NTree)
    (cs : List (String × NTree)) :
    childReplace a x (childReplace a y cs) = childReplace a x cs := by
  induction cs with
  | nil => rfl
  | cons hd tl ih =>
    obtain ⟨n0, c0⟩ := hd
    by_cases hb : n0 = a
    · subst hb
      simp [childReplace]
    · simp [childReplace, hb, ih]

/-- Two updates at the same address compose. -/
theorem updN_updN (p : List String) (t : NTree) (f g : NTree → NTree) :
    updN (updN t p f) p g = updN t p (fun n => g (f n)) := by
  induction p generalizing t with
  | nil => simp [updN]
  | cons a p' ih =>
    obtain ⟨d, cs⟩ := t
    cases hl : childLookup a cs with
    | none => simp [updN, hl]
    | some c =>
      simp only [updN, hl]
      rw [childLookup_childReplace a cs c (updN c p' f) hl]
      simp only [updN]
      rw [ih c, childReplace_childReplace]

/-- Pointwise equal updates agree. -/
theorem updN_congr (p : List String) (t : NTree) (f g : NTree → NTree)
    (h : ∀ n, f n = g n) : updN t p f = updN t p g := by
  have : f = g := funext h
  rw [this]

/-- A state-only update at a proper ancestor does not change lookups
below it. -/
theorem getN_updData_proper_pref (p s : List String) (t : NTree)
    (f : NData → NData) (h : s ≠ []) :
    getN (updData t p f) (p ++ s) = getN t (p ++ s) := by
  rw [getN_append, getN_append]
  cases hg : getN t p with
  | none => rw [updData, updN_none p t _ hg, hg]
  | some n =>
    rw [updData, getN_updN p t _ n hg]
    obtain ⟨d, cs⟩ := n
    simp only [Option.bind, NTree.data, NTree.children]
    exact getN_data_irrel _ _ cs s h

/-- The identity update changes nothing. -/
theorem updN_id (p : List String) (t : NTree) :
    updN t p (fun n => n) = t := by
  induction p generalizing t with
  | nil => simp [updN]
  | cons a p' ih =>
    obtain ⟨d, cs⟩ := t
    cases hl : childLookup a cs with
    | none => simp [updN, hl]
    | some c => simp [updN, hl, ih c, childReplace_self a c cs hl]

/-- An update that fixes the node at its address changes nothing. -/
theorem updN_eq_self (p : List String) (t n : NTree) (f : NTree → NTree)
    (h : getN t p = some n) (hf : f n = n) : updN t p f = t := by
  induction p generalizing t with
  | nil =>
    have ht : t = n := by simpa [getN] using h
    subst ht
    simp [updN, hf]
  | cons a p' ih =>
    obtain ⟨d, cs⟩ := t
    simp only [getN] at h
    cases hl : childLookup a cs with
    | none =>
      rw [hl] at h
      simp at h
    | some c =>
      rw [hl] at h
      simp only [updN, hl]
      rw [ih c h, childReplace_self a c cs hl]

/-- An update strictly below an address keeps that node's own state. -/
theorem getN_updN_above (p r : List String) (t : NTree) (g : NTree → NTree)
    (hr : r ≠ []) :
    (getN (updN t (p ++ r) g) p).map NTree.data =
      (getN t p).map NTree.data := by
  induction p generalizing t with
  | nil =>
    cases r with
    | nil => exact absurd rfl hr
    | cons a r' =>
      obtain ⟨d, cs⟩ := t
      simp only [List.nil_append, updN]
      cases hl : childLookup a cs <;> simp [getN, NTree.data]
  | cons a p' ih =>
    obtain ⟨d, cs⟩ := t
    simp only [List.cons_append, updN]
    cases hl : childLookup a cs with
    | none => simp [getN, hl]
    | some c =>
      simp only [getN, childLookup_childReplace a cs c _ hl, hl]
      exact ih c

/-- A lookup that succeeds at an extension succeeds at the prefix. -/
theorem getN_isSome_append (p r : List String) (t : NTree)
    (h : (getN t (p ++ r)).isSome = true) : (getN t p).isSome = true := by
  rw [getN_append] at h
  cases hp : getN t p with
  | none => rw [hp] at h; simp at h
  | some n => rfl

/-- A step-preserved predicate is preserved by the whole fold. -/
theorem foldl_preserve (P : α → Prop) (g : α → β → α)
    (h : ∀ s a, P s → P (g s a)) :
    ∀ (l : List β) (s : α), P s → P (l.foldl g s) := by
  intro l
  induction l with
  | nil => intro s hs; exact hs
  | cons a l' ih => intro s hs; exact ih (g s a) (h s a hs)

/-- Splitting a longer take at a shorter one. -/
theorem take_split (l : List α) (i j : Nat) (hij : i ≤ j) :
    l.take j = l.take i ++ (l.drop i).take (j - i) := by
  have hj : j = i + (j - i) := by omega
  nth_rewrite 1 [hj]
  rw [List.take_add]

/-- The slice between two indices inside the list is nonempty. -/
theorem take_drop_ne_nil (l : List α) (i j : Nat) (h1 : i < j)
    (h2 : i < l.length) : (l.drop i).take (j - i) ≠ [] := by
  intro hEq
  have h3 := congrArg List.length hEq
  simp [List.length_take, List.length_drop] at h3
  omega

/-- A dropped tail inside the list is nonempty. -/
theorem drop_ne_nil (l : List α) (i : Nat) (h : i < l.length) :
    l.drop i ≠ [] := by
  intro hEq
  have h3 := congrArg List.length hEq
  simp [List.length_drop] at h3
  omega

/-! ## Observe and collapse lemmas -/

/-- The ancestor loop of `observe` runs at proper ancestors only, so the
node's own lookup is untouched. -/
theorem obsChain_getN (ps : List (List String)) (t : NTree)
    (addr : List String)
    (h : ∀ p ∈ ps, ∃ r, r ≠ [] ∧ addr = p ++ r) :
    getN (obsChain t ps) addr = getN t addr := by
  induction ps generalizing t with
  | nil => rfl
  | cons p rest ih =>
    rw [obsChain]
    cases hg : getN t p with
    | none => rfl
    | some n =>
      by_cases hq : n.data.quasi = true
      · simp only [hq, if_true]
        rw [ih _ (fun q hq' => h q (by simp [hq']))]
        obtain ⟨r, hr, hpr⟩ := h p (by simp)
        rw [hpr]
        exact getN_updData_proper_pref p r t _ hr
      · simp only [hq, Bool.false_eq_true, if_false]

/-- `observe` clears the node's own `quasi` flag and changes nothing else
at the node (its state aside from `quasi`, and its children, are kept). -/
theorem getN_observeAt (t : NTree) (addr : List String) (n : NTree)
    (h : getN t addr = some n) :
    getN (observeAt t addr) addr =
      some (NTree.mk { n.data with quasi := false } n.children) := by
  simp only [observeAt, h]
  by_cases hq : n.data.quasi = true
  · rw [if_pos hq]
    have hside : ∀ p ∈ (List.range addr.length).reverse.map (addr.take ·),
        ∃ r, r ≠ [] ∧ addr = p ++ r := by
      intro p hp
      simp only [List.mem_map, List.mem_reverse, List.mem_range] at hp
      obtain ⟨i, hi, rfl⟩ := hp
      exact ⟨addr.drop i, drop_ne_nil addr i hi,
        (List.take_append_drop i addr).symm⟩
    rw [obsChain_getN _ _ _ hside, updData, getN_updN addr t _ n h]
  · rw [if_neg hq]
    rw [h]
    obtain ⟨d, cs⟩ := n
    simp only [NTree.data] at hq
    have hd : { d with quasi := false } = d := by
      cases d
      simp_all
    simp [NTree.data, NTree.children, hd]

/-- `observe` on a non-quasi node does nothing. -/
theorem observeAt_nonquasi (t : NTree) (addr : List String) (n : NTree)
    (h : getN t addr = some n) (hq : n.data.quasi = false) :
    observeAt t addr = t := by
  simp only [observeAt, h, hq, Bool.false_eq_true, if_false]

/-- After `collapse` the node is collapsed or was visited. -/
theorem collapseSub_post (n : NTree) :
    (collapseSub n).data.collapsed = true ∨
      (collapseSub n).data.visited = true := by
  obtain ⟨d, cs⟩ := n
  rw [collapseSub]
  split
  · rename_i hcv
    simp only [NTree.data]
    rcases hcv with h | h
    · exact Or.inl h
    · exact Or.inr h
  · left
    rfl

/-- `collapse` keeps the node's own group. -/
theorem collapseSub_group (n : NTree) :
    (collapseSub n).data.group = n.data.group := by
  obtain ⟨d, cs⟩ := n
  rw [collapseSub]
  split
  · rfl
  · rfl

/-- `collapse` keeps the node's own visited flag. -/
theorem collapseSub_visited (n : NTree) :
    (collapseSub n).data.visited = n.data.visited := by
  obtain ⟨d, cs⟩ := n
  rw [collapseSub]
  split
  · rfl
  · rfl

/-- `collapse` on a collapsed or visited node does nothing. -/
theorem collapseSub_fix (n : NTree)
    (h : n.data.collapsed = true ∨ n.data.visited = true) :
    collapseSub n = n := by
  obtain ⟨d, cs⟩ := n
  rw [collapseSub]
  rw [if_pos]
  simp only [NTree.data] at h
  rcases h with h | h
  · exact Or.inl h
  · exact Or.inr h

/-! ## Visit idempotence (C7) -/

/-- A state update that sets `visited` makes the node at its address
visited. -/
theorem updData_visited_post (t : NTree) (addr : List String)
    (fu : NData → NData) (n : NTree) (hfu : ∀ d, (fu d).visited = true)
    (h : getN (updData t addr fu) addr = some n) :
    n.data.visited = true := by
  cases hg : getN t addr with
  | none =>
    rw [updData, updN_none _ _ _ hg] at h
    rw [hg] at h
    cases h
  | some m =>
    rw [updData, getN_updN addr t _ m hg] at h
    have h2 := Option.some.inj h
    subst h2
    simpa [NTree.data] using hfu m.data

/-- After one full (fueled) step of `visit`, whatever node sits at the
visited address is marked visited. -/
theorem visit_post (fs : FsEnt) (rootP : String) (f : Nat) (t : NTree)
    (addr : List String) (g : Option String) (n : NTree)
    (h : getN (visitAt fs rootP (f + 1) t addr g) addr = some n) :
    n.data.visited = true := by
  rw [visitAt] at h
  split at h
  · rename_i heq
    rw [heq] at h
    cases h
  · rename_i n0 heq
    split at h
    · rename_i hv
      rw [heq] at h
      have h2 := Option.some.inj h
      subst h2
      exact hv
    · rename_i hv
      simp only [] at h
      split at h
      · rename_i heq2
        rw [heq2] at h
        cases h
      · rename_i n2 heq2
        split at h
        · exact updData_visited_post _ _ _ _ (fun d => rfl) h
        · exact updData_visited_post _ _ _ _ (fun d => rfl) h

/-- `visit` is idempotent: a second `visit` (with any fuel) on the result
of a first full one changes nothing. -/
theorem visitAt_idem (fs : FsEnt) (rootP : String) (f fp : Nat) (t : NTree)
    (addr : List String) (g : Option String) :
    visitAt fs rootP fp (visitAt fs rootP (f + 1) t addr g) addr g =
      visitAt fs rootP (f + 1) t addr g := by
  cases fp with
  | zero => rfl
  | succ fpp =>
    rw [visitAt]
    cases hg : getN (visitAt fs rootP (f + 1) t addr g) addr with
    | none => rfl
    | some n =>
      have hv := visit_post fs rootP f t addr g n hg
      simp only [hv, if_true]

/-- The distinct variant's `visit` is idempotent on any node present in
the tree: a second call returns at the group check and adds nothing. -/
theorem distinctVisit_idem (fs : FsEnt) (rootP : String) (ab : Bool)
    (t : NTree) (gs : Groups) (addr : List String) (g : Option String)
    (n : NTree) (h : getN t addr = some n) :
    distinctVisit fs rootP ab
      (distinctVisit fs rootP ab t gs addr g).fst
      (distinctVisit fs rootP ab t gs addr g).snd addr g =
      distinctVisit fs rootP ab t gs addr g := by
  have h1 : getN (observeAt t addr) addr =
      some (NTree.mk { n.data with quasi := false } n.children) :=
    getN_observeAt t addr n h
  have h2 : getN (collapseAt (observeAt t addr) addr) addr =
      some (collapseSub (NTree.mk { n.data with quasi := false }
        n.children)) := by
    rw [collapseAt]
    exact getN_updN addr _ _ _ h1
  have hq2 : (collapseSub (NTree.mk { n.data with quasi := false }
      n.children)).data.quasi = false := by
    rw [collapseSub_quasi]
    rfl
  have hcv2 := collapseSub_post
    (NTree.mk { n.data with quasi := false } n.children)
  by_cases hgroup : (collapseSub (NTree.mk { n.data with quasi := false }
      n.children)).data.group.isSome = true
  · have hfst : distinctVisit fs rootP ab t gs addr g =
        (collapseAt (observeAt t addr) addr, gs) := by
      simp only [distinctVisit, h, h2, hgroup, if_true]
    rw [hfst]
    have hca : collapseAt (collapseAt (observeAt t addr) addr) addr =
        collapseAt (observeAt t addr) addr := by
      rw [collapseAt]
      exact updN_eq_self _ _ _ _ h2 (collapseSub_fix _ hcv2)
    simp only [distinctVisit, h2,
      observeAt_nonquasi _ _ _ h2 hq2, hca, hgroup, if_true]
  · have hfst : distinctVisit fs rootP ab t gs addr g =
        (updData (collapseAt (observeAt t addr) addr) addr
           (fun d => { d with group := some (strOr g DEFAULT_GROUP) }),
         addToGroup rootP ab gs (strOr g DEFAULT_GROUP)
           (pathOf rootP addr)) := by
      simp only [distinctVisit, h, h2]
      rw [if_neg hgroup]
    have h3 : getN (updData (collapseAt (observeAt t addr) addr) addr
        (fun d => { d with group := some (strOr g DEFAULT_GROUP) })) addr =
        some (NTree.mk
          { (collapseSub (NTree.mk { n.data with quasi := false }
              n.children)).data with group := some (strOr g DEFAULT_GROUP) }
          (collapseSub (NTree.mk { n.data with quasi := false }
            n.children)).children) := by
      rw [updData]
      exact getN_updN addr _ _ _ h2
    have hq3 : (NTree.mk
        { (collapseSub (NTree.mk { n.data with quasi := false }
            n.children)).data with group := some (strOr g DEFAULT_GROUP) }
        (collapseSub (NTree.mk { n.data with quasi := false }
          n.children)).children).data.quasi = false := hq2
    have hcv3 : (NTree.mk
        { (collapseSub (NTree.mk { n.data with quasi := false }
            n.children)).data with group := some (strOr g DEFAULT_GROUP) }
        (collapseSub (NTree.mk { n.data with quasi := false }
          n.children)).children).data.collapsed = true ∨
        (NTree.mk
        { (collapseSub (NTree.mk { n.data with quasi := false }
            n.children)).data with group := some (strOr g DEFAULT_GROUP) }
        (collapseSub (NTree.mk { n.data with quasi := false }
          n.children)).children).data.visited = true := hcv2
    rw [hfst]
    have hca : collapseAt (updData (collapseAt (observeAt t addr) addr) addr
        (fun d => { d with group := some (strOr g DEFAULT_GROUP) })) addr =
        updData (collapseAt (observeAt t addr) addr) addr
          (fun d => { d with group := some (strOr g DEFAULT_GROUP) }) := by
      rw [collapseAt]
      exact updN_eq_self _ _ _ _ h3 (collapseSub_fix _ hcv3)
    simp only [distinctVisit, h3,
      observeAt_nonquasi _ _ _ h3 hq3, hca, NTree.data,
      Option.isSome_some, if_true]

/-- C7: `visit` is idempotent in both modes.  Non-distinct: a second
`visitAt` (with any fuel) after a first full one returns at the
`visited` check and leaves the tree unchanged.  Distinct: for a node
present in the tree, a second `DistinctFileTreeNode.visit` returns at
the group check, so the tree and the grouper's group lists equal those
after a single call.  (In the source a yielded node object can also be
one detached from the tree by an earlier consumer; idempotence holds
there too — the second call returns at the object's now-set group — but
the address-based embedding states the tree-resident case.) -/
theorem visit_idempotent :
    (∀ (fs : FsEnt) (rootP : String) (f fp : Nat) (t : NTree)
       (addr : List String) (g : Option String),
       visitAt fs rootP fp (visitAt fs rootP (f + 1) t addr g) addr g =
         visitAt fs rootP (f + 1) t addr g) ∧
    (∀ (fs : FsEnt) (rootP : String) (ab : Bool) (t : NTree) (gs : Groups)
       (addr : List String) (g : Option String) (n : NTree),
       getN t addr = some n →
       distinctVisit fs rootP ab
         (distinctVisit fs rootP ab t gs addr g).fst
         (distinctVisit fs rootP ab t gs addr g).snd addr g =
         distinctVisit fs rootP ab t gs addr g) :=
  ⟨visitAt_idem, distinctVisit_idem⟩

/-- C7 witness: both parts applied to the sample tree at its root. -/
theorem visit_idempotent_witness :
    visitAt fsW "/r" 4 (visitAt fsW "/r" 4 rootNode [] (some "g")) []
        (some "g") =
      visitAt fsW "/r" 4 rootNode [] (some "g") ∧
    getN rootNode [] = some rootNode ∧
    distinctVisit fsW "/r" false
      (distinctVisit fsW "/r" false rootNode [] [] (some "g")).fst
      (distinctVisit fsW "/r" false rootNode [] [] (some "g")).snd []
        (some "g") =
      distinctVisit fsW "/r" false rootNode [] [] (some "g") :=
  ⟨visit_idempotent.1 fsW "/r" 3 4 rootNode [] (some "g"), rfl,
   visit_idempotent.2 fsW "/r" false rootNode [] [] (some "g") rootNode rfl⟩

/-! ## The visited/expanded invariant (C3) -/

mutual
/-- Every node of the tree that is visited is expanded or carries a
group. -/
def okVE : NTree → Bool
  | NTree.mk d cs =>
    (!d.visited || (d.expanded || d.group.isSome)) && okVEKids cs

/-- `okVE` over a children list. -/
def okVEKids : List (String × NTree) → Bool
  | [] => true
  | (_, c) :: rest => okVE c && okVEKids rest
end

/-- Splitting `okVE` at the root node. -/
theorem okVE_mk (d : NData) (cs : List (String × NTree)) :
    okVE (NTree.mk d cs) =
      ((!d.visited || (d.expanded || d.group.isSome)) && okVEKids cs) := by
  rw [okVE]

/-- A looked-up child of a good children list is good. -/
theorem okVE_of_childLookup (a : String) (cs : List (String × NTree))
    (c : NTree) (hk : okVEKids cs = true) (hl : childLookup a cs = some c) :
    okVE c = true := by
  induction cs with
  | nil => simp [childLookup] at hl
  | cons hd rest ih =>
    obtain ⟨nm, c0⟩ := hd
    rw [okVEKids, Bool.and_eq_true] at hk
    rw [childLookup] at hl
    by_cases hn : nm = a
    · rw [if_pos hn] at hl
      have := Option.some.inj hl
      subst this
      exact hk.1
    · rw [if_neg hn] at hl
      exact ih hk.2 hl

/-- Replacing a child with a good node keeps the list good. -/
theorem okVEKids_childReplace (a : String) (c' : NTree)
    (cs : List (String × NTree)) (hk : okVEKids cs = true)
    (hc : okVE c' = true) : okVEKids (childReplace a c' cs) = true := by
  induction cs with
  | nil => simp [childReplace, okVEKids]
  | cons hd rest ih =>
    obtain ⟨nm, c0⟩ := hd
    rw [okVEKids, Bool.and_eq_true] at hk
    rw [childReplace]
    by_cases hn : nm = a
    · rw [if_pos hn, okVEKids, Bool.and_eq_true]
      exact ⟨hc, hk.2⟩
    · rw [if_neg hn, okVEKids, Bool.and_eq_true]
      exact ⟨hk.1, ih hk.2⟩

/-- Removing a child keeps the list good. -/
theorem okVEKids_childRemove (a : String) (cs : List (String × NTree))
    (hk : okVEKids cs = true) : okVEKids (childRemove a cs) = true := by
  induction cs with
  | nil => simpa [childRemove] using hk
  | cons hd rest ih =>
    obtain ⟨nm, c0⟩ := hd
    rw [okVEKids, Bool.and_eq_true] at hk
    rw [childRemove]
    by_cases hn : nm = a
    · rw [if_pos hn]
      exact hk.2
    · rw [if_neg hn, okVEKids, Bool.and_eq_true]
      exact ⟨hk.1, ih hk.2⟩

/-- Appending a good child keeps the list good. -/
theorem okVEKids_append (cs : List (String × NTree)) (nm : String)
    (c : NTree) (hk : okVEKids cs = true) (hc : okVE c = true) :
    okVEKids (cs ++ [(nm, c)]) = true := by
  induction cs with
  | nil => simp [okVEKids, hc]
  | cons hd rest ih =>
    obtain ⟨nm0, c0⟩ := hd
    rw [okVEKids, Bool.and_eq_true] at hk
    rw [List.cons_append, okVEKids, Bool.and_eq_true]
    exact ⟨hk.1, ih hk.2⟩

/-- Every node of a good tree is good. -/
theorem okVE_of_getN (p : List String) (t n : NTree) (ht : okVE t = true)
    (h : getN t p = some n) : okVE n = true := by
  induction p generalizing t with
  | nil =>
    have := Option.some.inj (by simpa [getN] using h)
    rwa [this] at ht
  | cons a p' ih =>
    obtain ⟨d, cs⟩ := t
    simp only [getN] at h
    cases hl : childLookup a cs with
    | none => rw [hl] at h; cases h
    | some c =>
      rw [hl] at h
      rw [okVE_mk, Bool.and_eq_true] at ht
      exact ih c (okVE_of_childLookup a cs c ht.2 hl) h

/-- An update whose function keeps goodness keeps the tree good. -/
theorem okVE_updN (p : List String) (t : NTree) (f : NTree → NTree)
    (ht : okVE t = true)
    (hf : ∀ n, getN t p = some n → okVE n = true → okVE (f n) = true) :
    okVE (updN t p f) = true := by
  induction p generalizing t with
  | nil =>
    simp only [updN]
    exact hf t (by simp [getN]) ht
  | cons a p' ih =>
    obtain ⟨d, cs⟩ := t
    rw [okVE_mk, Bool.and_eq_true] at ht
    cases hl : childLookup a cs with
    | none => simp only [updN, hl, okVE_mk, Bool.and_eq_true]; exact ht
    | some c =>
      simp only [updN, hl, okVE_mk, Bool.and_eq_true]
      refine ⟨ht.1, okVEKids_childReplace a _ cs ht.2 ?_⟩
      refine ih c (okVE_of_childLookup a cs c ht.2 hl) ?_
      intro m hm hokm
      refine hf m ?_ hokm
      simp [getN, hl, hm]

/-- A state update that keeps `visited`, `expanded` and `group` keeps the
tree good. -/
theorem okVE_updData_frame (p : List String) (t : NTree)
    (fd : NData → NData) (ht : okVE t = true)
    (hfd : ∀ d, (fd d).visited = d.visited ∧ (fd d).expanded = d.expanded ∧
      (fd d).group = d.group) :
    okVE (updData t p fd) = true := by
  rw [updData]
  refine okVE_updN p t _ ht ?_
  intro n hg hok
  obtain ⟨d, cs⟩ := n
  simp only [NTree.data, NTree.children]
  rw [okVE_mk, Bool.and_eq_true] at hok
  rw [okVE_mk, Bool.and_eq_true]
  obtain ⟨h1, h2, h3⟩ := hfd d
  refine ⟨?_, hok.2⟩
  rw [h1, h2, h3]
  exact hok.1

/-- A state update that makes the node expanded or grouped keeps the
tree good. -/
theorem okVE_updData_good (p : List String) (t : NTree)
    (fd : NData → NData) (ht : okVE t = true)
    (hfd : ∀ d, (fd d).expanded = true ∨ (fd d).group.isSome = true) :
    okVE (updData t p fd) = true := by
  rw [updData]
  refine okVE_updN p t _ ht ?_
  intro n hg hok
  obtain ⟨d, cs⟩ := n
  simp only [NTree.data, NTree.children]
  rw [okVE_mk, Bool.and_eq_true] at hok
  rw [okVE_mk, Bool.and_eq_true]
  refine ⟨?_, hok.2⟩
  rcases hfd d with h1 | h1 <;> simp [h1]

/-- The ancestor loop of `observe` keeps the tree good. -/
theorem okVE_obsChain (ps : List (List String)) (t : NTree)
    (ht : okVE t = true) : okVE (obsChain t ps) = true := by
  induction ps generalizing t with
  | nil => exact ht
  | cons p rest ih =>
    rw [obsChain]
    cases hg : getN t p with
    | none => exact ht
    | some n =>
      by_cases hq : n.data.quasi = true
      · simp only [hq, if_true]
        refine ih _ (okVE_updData_frame p t _ ht ?_)
        intro d
        exact ⟨rfl, rfl, rfl⟩
      · simp only [hq, Bool.false_eq_true, if_false]
        exact ht

/-- `observe` keeps the tree good. -/
theorem okVE_observeAt (t : NTree) (addr : List String)
    (ht : okVE t = true) : okVE (observeAt t addr) = true := by
  rw [observeAt]
  cases hg : getN t addr with
  | none => exact ht
  | some n =>
    by_cases hq : n.data.quasi = true
    · simp only [hq, if_true]
      refine okVE_obsChain _ _ (okVE_updData_frame addr t _ ht ?_)
      intro d
      exact ⟨rfl, rfl, rfl⟩
    · simp only [hq, Bool.false_eq_true, if_false]
      exact ht

mutual
/-- `collapse` keeps the subtree good. -/
theorem okVE_collapseSub (n : NTree) (h : okVE n = true) :
    okVE (collapseSub n) = true := by
  obtain ⟨d, cs⟩ := n
  rw [collapseSub]
  split
  · exact h
  · rename_i hcv
    rw [okVE_mk, Bool.and_eq_true] at h
    cases hcr : collapseKids cs with
    | mk w rest' =>
      have hr := okVE_collapseKids cs h.2
      rw [hcr] at hr
      have hv : d.visited = false := by
        cases hdv : d.visited with
        | false => rfl
        | true => exact absurd (Or.inr hdv) hcv
      simp only [okVE_mk, Bool.and_eq_true, NTree.data]
      refine ⟨?_, hr⟩
      simp [hv]

/-- The child loop of `collapse` keeps the children good. -/
theorem okVE_collapseKids (cs : List (String × NTree))
    (h : okVEKids cs = true) : okVEKids (collapseKids cs).snd = true := by
  cases cs with
  | nil => simp [collapseKids, okVEKids]
  | cons hd rest =>
    obtain ⟨nm, c⟩ := hd
    rw [okVEKids, Bool.and_eq_true] at h
    rw [collapseKids]
    cases hcr : collapseKids rest with
    | mk w rest' =>
      have hr := okVE_collapseKids rest h.2
      rw [hcr] at hr
      by_cases hq : c.data.quasi = true
      · simp only [hq, if_true]
        exact hr
      · by_cases hcol : c.data.collapsed = true
        · simp only [hq, hcol, Bool.false_eq_true, if_false, not_true,
            okVEKids, Bool.and_eq_true]
          exact ⟨h.1, hr⟩
        · simp only [hq, hcol, Bool.false_eq_true, if_false, not_false_iff,
            if_true, okVEKids, Bool.and_eq_true]
          exact ⟨okVE_collapseSub c h.1, hr⟩
end

/-- `collapse()` at an address keeps the tree good. -/
theorem okVE_collapseAt (t : NTree) (addr : List String)
    (ht : okVE t = true) : okVE (collapseAt t addr) = true := by
  rw [collapseAt]
  exact okVE_updN addr t _ ht (fun n _ hok => okVE_collapseSub n hok)

/-- The prune cascade keeps the tree good. -/
theorem okVE_pruneChain (ps : List (List String)) (t : NTree)
    (ht : okVE t = true) : okVE (pruneChain t ps) = true := by
  induction ps generalizing t with
  | nil => exact ht
  | cons p rest ih =>
    rw [pruneChain]
    cases hg : getN t p with
    | none => exact ht
    | some n =>
      by_cases hc : (n.data.prune_guard > 0 ∨ ¬ n.children.isEmpty = true ∨
        n.data.visited = true)
      · simp only [if_pos hc]
        exact ht
      · simp only [if_neg hc]
        refine ih _ (okVE_updN _ t _ ht ?_)
        intro m hm hokm
        obtain ⟨d, cs⟩ := m
        simp only [NTree.data, NTree.children]
        rw [okVE_mk, Bool.and_eq_true] at hokm
        rw [okVE_mk, Bool.and_eq_true]
        exact ⟨hokm.1, okVEKids_childRemove _ cs hokm.2⟩

/-- `prune()` keeps the tree good. -/
theorem okVE_pruneN (t : NTree) (addr : List String)
    (ht : okVE t = true) : okVE (pruneN t addr) = true :=
  okVE_pruneChain _ t ht

/-- The node-local part of goodness. -/
theorem okVE_head (m : NTree) (h : okVE m = true) :
    (!m.data.visited || (m.data.expanded || m.data.group.isSome)) = true := by
  obtain ⟨d, cs⟩ := m
  rw [okVE_mk, Bool.and_eq_true] at h
  exact h.1

/-- The children of a good node are good. -/
theorem okVE_children (m : NTree) (h : okVE m = true) :
    okVEKids m.children = true := by
  obtain ⟨d, cs⟩ := m
  rw [okVE_mk, Bool.and_eq_true] at h
  exact h.2

/-- Assembling goodness at a node. -/
theorem okVE_mk_of (d : NData) (cs : List (String × NTree))
    (hd : (!d.visited || (d.expanded || d.group.isSome)) = true)
    (hk : okVEKids cs = true) : okVE (NTree.mk d cs) = true := by
  rw [okVE_mk, Bool.and_eq_true]
  exact ⟨hd, hk⟩

/-- A freshly constructed node is good. -/
theorem okVE_newNode (group : Option String) (quasi : Bool) (depth : Nat) :
    okVE (newNode group quasi depth) = true := by
  cases group <;> simp [newNode, okVE_mk, okVEKids]

/-- `get_child` keeps the tree good. -/
theorem okVE_getChildAt (t : NTree) (paddr : List String) (name : String)
    (group : Option String) (quasi : Option Bool) (ht : okVE t = true) :
    okVE (getChildAt t paddr name group quasi) = true := by
  rw [getChildAt]
  refine okVE_updN _ t _ ht ?_
  intro n hg hok
  cases hl : childLookup name n.children with
  | some c => exact hok
  | none =>
    obtain ⟨d, cs⟩ := n
    refine okVE_mk_of _ _ (okVE_head _ hok) ?_
    exact okVEKids_append cs _ _ (okVE_children _ hok) (okVE_newNode _ _ _)

/-- `locate` keeps the tree good. -/
theorem okVE_locateAt (path : List String) (t : NTree) (base : List String)
    (ht : okVE t = true) : okVE (locateAt t base path).fst = true := by
  induction path generalizing t base with
  | nil => exact ht
  | cons part rest ih =>
    rw [locateAt]
    have ht1 := okVE_getChildAt t base part none none ht
    cases hg : getN (getChildAt t base part none none) (base ++ [part]) with
    | none => exact ht1
    | some n =>
      by_cases hv : n.data.visited = true
      · simp only [hv, if_true]
        exact ht1
      · simp only [hv, Bool.false_eq_true, if_false]
        exact ih _ _ ht1

mutual
/-- `expand` keeps the subtree good. -/
theorem okVE_expandEnt (e : FsEnt) (depth : Nat) (n : NTree)
    (h : okVE n = true) : okVE (expandEnt e depth n).fst = true := by
  rw [expandEnt.eq_def]
  by_cases hev : (n.data.expanded = true ∨ n.data.visited = true)
  · simp only [if_pos hev]
    exact h
  · simp only [if_neg hev]
    cases e with
    | file =>
      split
      · exact okVE_mk_of _ _ (by simp [NTree.data]) (okVE_children n h)
      · exact okVE_mk_of _ _ (by simp [NTree.data]) (okVE_children n h)
    | deny =>
      split
      · exact okVE_mk_of _ _ (by simp [NTree.data]) (okVE_children n h)
      · exact okVE_mk_of _ _ (by simp [NTree.data]) (okVE_children n h)
    | dir es =>
      have hst := okVE_expandKids es depth n h
      split
      · exact okVE_mk_of _ _ (by simp [NTree.data])
          (okVE_children (expandKids es depth n).fst hst)
      · exact okVE_mk_of _ _ (by simp [NTree.data])
          (okVE_children (expandKids es depth n).fst hst)

/-- The child loop of `expand` keeps the tree good. -/
theorem okVE_expandKids (es : List (String × FsEnt)) (depth : Nat)
    (n : NTree) (h : okVE n = true) :
    okVE (expandKids es depth n).fst = true := by
  cases es with
  | nil => simpa [expandKids] using h
  | cons hd rest =>
    obtain ⟨nm, e⟩ := hd
    rw [expandKids]
    simp only []
    cases hl : childLookup nm n.children with
    | some c =>
      have hc : okVE c = true :=
        okVE_of_childLookup nm n.children c (okVE_children n h) hl
      have hr := okVE_expandEnt e (depth + 1) c hc
      refine okVE_expandKids rest depth _ (okVE_mk_of _ _ ?_ ?_)
      · split
        · exact okVE_head n h
        · exact okVE_head n h
      · exact okVEKids_childReplace nm _ n.children (okVE_children n h) hr
    | none =>
      have hr := okVE_expandEnt e (depth + 1) (newNode none true (depth + 1))
        (okVE_newNode none true (depth + 1))
      refine okVE_expandKids rest depth _ (okVE_mk_of _ _ ?_ ?_)
      · split
        · exact okVE_head n h
        · exact okVE_head n h
      · exact okVEKids_append n.children nm _ (okVE_children n h) hr
end

/-- The optional-entry wrapper of `expand` keeps the subtree good. -/
theorem okVE_expandSub (fsEnt : Option FsEnt) (depth : Nat) (n : NTree)
    (h : okVE n = true) : okVE (expandSub fsEnt depth n).fst = true := by
  cases fsEnt with
  | some e => exact okVE_expandEnt e depth n h
  | none =>
    rw [expandSub]
    split
    · exact h
    · exact okVE_mk_of _ _ (by simp [NTree.data]) (okVE_children n h)

/-- The ancestor `collapsed := false` loop keeps the tree good. -/
theorem okVE_markUp (t : NTree) (addr : List String) (ht : okVE t = true) :
    okVE (markUp t addr) = true := by
  rw [markUp]
  refine foldl_preserve (fun t => okVE t = true) _ ?_ _ t ht
  intro s i hs
  exact okVE_updData_frame _ s _ hs (fun d => ⟨rfl, rfl, rfl⟩)

/-- `expand()` keeps the tree good. -/
theorem okVE_expandAt (fs : FsEnt) (rootP : String) (t : NTree)
    (addr : List String) (ht : okVE t = true) :
    okVE (expandAt fs rootP t addr) = true := by
  rw [expandAt]
  cases hg : getN t addr with
  | none => exact ht
  | some n =>
    simp only []
    have hn := okVE_of_getN addr t n ht hg
    have hr := okVE_expandSub (fsFindPath fs (pathOf rootP addr))
      addr.length n hn
    have ht1 : okVE (updN t addr (fun _ =>
        (expandSub (fsFindPath fs (pathOf rootP addr))
          addr.length n).fst)) = true :=
      okVE_updN addr t _ ht (fun m hm hom => hr)
    split
    · exact okVE_markUp _ addr ht1
    · exact ht1

/-- `visit` keeps the tree good. -/
theorem okVE_visitAt (fs : FsEnt) (rootP : String) (f : Nat) :
    ∀ (t : NTree) (addr : List String) (g : Option String),
    okVE t = true → okVE (visitAt fs rootP f t addr g) = true := by
  induction f with
  | zero => intro t addr g ht; exact ht
  | succ f ih =>
    intro t addr g ht
    rw [visitAt]
    cases hg : getN t addr with
    | none => exact ht
    | some n =>
      by_cases hv : n.data.visited = true
      · simp only [hv, if_true]
        exact ht
      · simp only [hv, Bool.false_eq_true, if_false]
        have ht2 : okVE (collapseAt (observeAt t addr) addr) = true :=
          okVE_collapseAt _ addr (okVE_observeAt t addr ht)
        cases hg2 : getN (collapseAt (observeAt t addr) addr) addr with
        | none => exact ht2
        | some n2 =>
          by_cases he : n2.children.isEmpty = true
          · simp only [he, if_true]
            exact okVE_updData_good addr _ _ ht2 (fun d => Or.inr rfl)
          · simp only [he, Bool.false_eq_true, if_false]
            refine okVE_updData_good addr _ _ ?_ (fun d => Or.inl rfl)
            split
            · refine foldl_preserve (fun t => okVE t = true) _ ?_ _ _ ht2
              intro s a hs
              exact ih _ _ _ (okVE_getChildAt s addr a _ none hs)
            · refine foldl_preserve (fun t => okVE t = true) _ ?_ _ _ ht2
              intro s a hs
              exact ih _ _ _ hs

/-- The guard/prune/unguard transaction of the `..` branch keeps the
tree good. -/
theorem okVE_guard_prune_folds (parents ps : List (List String))
    (t : NTree) (ht : okVE t = true) :
    okVE (parents.foldl decGuard
      (ps.foldl pruneN (parents.foldl incGuard t))) = true := by
  refine foldl_preserve (fun t => okVE t = true) decGuard ?_ _ _ ?_
  · intro s a hs
    exact okVE_updData_frame _ s _ hs (fun d => ⟨rfl, rfl, rfl⟩)
  refine foldl_preserve (fun t => okVE t = true) pruneN ?_ _ _ ?_
  · intro s a hs
    exact okVE_pruneN s a hs
  refine foldl_preserve (fun t => okVE t = true) incGuard ?_ _ _ ht
  intro s a hs
  exact okVE_updData_frame _ s _ hs (fun d => ⟨rfl, rfl, rfl⟩)

/-- The `glob_nodes` loop keeps the tree good when its consumer does. -/
theorem okVE_locFold (st : GSt) (base : List String) (paths : List String)
    (k : GSt → List String → GSt)
    (hk : ∀ st a, okVE st.tree = true → okVE (k st a).tree = true)
    (h : okVE st.tree = true) : okVE (locFold st base paths k).tree = true := by
  rw [locFold]
  refine foldl_preserve (fun (st : GSt) => okVE st.tree = true) _ ?_ _ _ h
  intro s p hs
  simp only []
  have hf : okVE (locateAt s.tree base (split_path p)).fst = true :=
    okVE_locateAt _ _ _ hs
  cases hr : (locateAt s.tree base (split_path p)).snd with
  | some a => exact hk _ _ hf
  | none => exact hf

/-- Extended-glob evaluation keeps the tree good whenever the consumer
does (simultaneous fuel induction over the whole mutual block). -/
theorem okVE_glob (f : Nat) :
    ∀ (sink : Sink),
      (∀ st a, okVE st.tree = true → okVE (sink st a).tree = true) →
      (∀ fs rootP st addr rglob d, okVE st.tree = true →
        okVE (globChildren fs rootP sink f st addr rglob d).tree = true) ∧
      (∀ fs rootP st addr d alts, okVE st.tree = true →
        okVE (globAlts fs rootP sink f st addr d alts).tree = true) ∧
      (∀ fs rootP st addr act d, okVE st.tree = true →
        okVE (descendGlob fs rootP sink f st addr act d).tree = true) ∧
      (∀ fs rootP st addr act d, okVE st.tree = true →
        okVE (descendNode fs rootP sink f st addr act d).tree = true) ∧
      (∀ fs rootP st addr names act d, okVE st.tree = true →
        okVE (descendKids fs rootP sink f st addr names act d).tree = true) := by
  induction f with
  | zero =>
    intro sink hsink
    refine ⟨fun _ _ _ _ _ _ h => h, ?_,
      fun _ _ _ _ _ _ h => h, fun _ _ _ _ _ _ h => h, ?_⟩
    · intro fs rootP st addr d alts h
      cases alts <;> exact h
    · intro fs rootP st addr names act d h
      cases names <;> exact h
  | succ f ih =>
    intro sink hsink
    obtain ⟨ihC, ihA, ihG, ihN, ihK⟩ := ih sink hsink
    obtain ⟨ihCollC, _, _, _, _⟩ := ih collectSink (fun st a h => h)
    have hIncW : ∀ (st : GSt) (addr : List String), okVE st.tree = true →
        okVE (incWeight st.tree addr) = true := by
      intro st addr h
      exact okVE_updData_frame _ _ _ h (fun d => ⟨rfl, rfl, rfl⟩)
    refine ⟨?_, ?_, ?_, ?_, ?_⟩
    · intro fs rootP st addr rglob d h
      rw [globChildren]
      exact ihA fs rootP _ addr d _ (hIncW st addr h)
    · intro fs rootP st addr d alts h
      cases alts with
      | nil => exact h
      | cons ga rest =>
        rw [globAlts]
        simp only []
        by_cases hemp :
            (List.filter (fun i => decide ¬ i = ".") (split_path ga)).isEmpty
              = true
        · simp only [hemp, if_true]
          exact hsink st addr h
        · simp only [hemp, Bool.false_eq_true, if_false]
          by_cases hdd :
              (List.filter (fun i => decide ¬ i = ".")
                (split_path ga)).contains ".." = true
          · simp only [hdd, if_true]
            split
            · refine foldl_preserve (fun (st : GSt) => okVE st.tree = true)
                _ ?_ _ _ ?_
              · intro s p hs
                exact ihC fs rootP s p _ _ hs
              · refine okVE_guard_prune_folds _ _ _ ?_
                split
                · exact h
                · exact ihCollC fs rootP _ addr _ false h
            · refine foldl_preserve (fun (st : GSt) => okVE st.tree = true)
                _ ?_ _ _ ?_
              · intro s p hs
                exact hsink s p hs
              · refine okVE_guard_prune_folds _ _ _ ?_
                split
                · exact h
                · exact ihCollC fs rootP _ addr _ false h
          · simp only [hdd, Bool.false_eq_true, if_false]
            by_cases hss :
                (List.filter (fun i => decide ¬ i = ".")
                  (split_path ga)).contains "**" = true
            · simp only [hss, if_true]
              split
              · exact ihG fs rootP st addr _ d h
              · refine okVE_locFold st addr _ _ ?_ h
                intro s nd hs
                exact ihG fs rootP s nd _ d hs
            · simp only [hss, Bool.false_eq_true, if_false]
              refine ihA fs rootP _ addr d rest ?_
              exact okVE_locFold st addr _ sink hsink h
    · intro fs rootP st addr act d h
      rw [descendGlob]
      exact ihN fs rootP _ addr act d (okVE_expandAt fs rootP st.tree addr h)
    · intro fs rootP st addr act d h
      rw [descendNode]
      cases hg : getN st.tree addr with
      | none => exact h
      | some n =>
        by_cases hv : n.data.visited = true
        · simp only [hv, if_true]
          exact h
        · simp only [hv, Bool.false_eq_true, if_false]
          cases act with
          | some lo =>
            exact ihK fs rootP _ addr _ _ d (ihC fs rootP st addr lo d h)
          | none =>
            by_cases hdc : (¬ d = true ∨ ¬ n.children.isEmpty = true)
            · simp only [if_pos hdc]
              exact ihK fs rootP _ addr _ none d (hsink st addr h)
            · simp only [if_neg hdc]
              exact ihK fs rootP _ addr _ none d h
    · intro fs rootP st addr names act d h
      cases names with
      | nil => exact h
      | cons nm rest =>
        rw [descendKids]
        cases hgc : getN st.tree (addr ++ [nm]) with
        | none => exact ihK fs rootP st addr rest act d h
        | some c =>
          by_cases hvc : c.data.visited = true
          · simp only [hvc, not_true, Bool.false_eq_true, if_false]
            exact ihK fs rootP st addr rest act d h
          · simp only [hvc, Bool.false_eq_true, not_false_iff, if_true]
            exact ihK fs rootP _ addr rest act d
              (ihN fs rootP st (addr ++ [nm]) act d h)

/-- C3 counterexample: visiting the fresh childless root takes the leaf
branch of `visit`, which sets `visited = True` and a group but never
touches `expanded` — the node ends visited and unexpanded, refuting
`visited ⇒ expanded`. -/
theorem visit_leaf_visited_not_expanded :
    (getN (visitAt fsW "/r" 1 rootNode [] (some "g")) []).map
      (fun n => (n.data.visited, n.data.expanded)) = some (true, false) := by
  decide

/-- C3 (amended): the unconditional implication `visited ⇒ expanded`
fails (see the counterexample: the leaf branch of `visit` sets `visited`
without `expanded`).  The invariant that does hold at every node, and is
preserved by `visit`, `collapse`, `expand`, `prune` and `glob_children`
(the latter relative to any consumer of its yields that itself preserves
the invariant — the grouper's consumers do), is
`visited ⇒ expanded ∨ group is set`: a visited node is expanded or
carries a group. -/
theorem visited_implies_expanded_or_grouped :
    (∀ fs rootP f t addr g, okVE t = true →
      okVE (visitAt fs rootP f t addr g) = true) ∧
    (∀ t addr, okVE t = true → okVE (collapseAt t addr) = true) ∧
    (∀ fs rootP t addr, okVE t = true →
      okVE (expandAt fs rootP t addr) = true) ∧
    (∀ t addr, okVE t = true → okVE (pruneN t addr) = true) ∧
    (∀ fs rootP (sink : Sink) f st addr rglob d,
      (∀ st' a, okVE st'.tree = true → okVE ((sink st' a)).tree = true) →
      okVE st.tree = true →
      okVE (globChildren fs rootP sink f st addr rglob d).tree = true) :=
  ⟨fun fs rootP f t addr g => okVE_visitAt fs rootP f t addr g,
   okVE_collapseAt, okVE_expandAt, okVE_pruneN,
   fun fs rootP sink f st addr rglob d hs h =>
     (okVE_glob f sink hs).1 fs rootP st addr rglob d h⟩

/-- C3 witness: the invariant holds on the fresh root and is kept by a
full visit and by a glob run with the collecting consumer. -/
theorem visited_implies_expanded_or_grouped_witness :
    okVE rootNode = true ∧
    okVE (visitAt fsW "/r" 3 rootNode [] (some "g")) = true ∧
    okVE (globChildren fsW "/r" collectSink 6
      { tree := rootNode, gs := [], ys := [] } [] "**" false).tree = true :=
  ⟨by decide,
   visited_implies_expanded_or_grouped.1 fsW "/r" 3 rootNode [] (some "g")
     (by decide),
   visited_implies_expanded_or_grouped.2.2.2.2 fsW "/r" collectSink 6
     { tree := rootNode, gs := [], ys := [] } [] "**" false
     (fun st' a h => h) (by decide)⟩

/-! ## The collapsed/quasi relation (C4) -/

mutual
/-- Whether any node of the tree (itself included) is quasi. -/
def anyQuasi : NTree → Bool
  | NTree.mk d cs => d.quasi || anyQuasiKids cs

/-- `anyQuasi` over a children list. -/
def anyQuasiKids : List (String × NTree) → Bool
  | [] => false
  | (_, c) :: rest => anyQuasi c || anyQuasiKids rest
end

/-- C4 counterexample: after expanding the root of `/r` (creating quasi
nodes and marking the root `collapsed = False`) and then visiting the
child `c`, no quasi node remains anywhere, yet the root still has
`collapsed = False` — `collapsed ⇔ no quasi descendant` fails in the ⇐
direction. -/
theorem collapsed_without_quasi_counterexample :
    (getN (visitAt fsQ "/r" 3 (expandAt fsQ "/r" rootNode []) ["c"]
      (some "g")) []).map (fun n => n.data.collapsed) = some false ∧
    anyQuasi (visitAt fsQ "/r" 3 (expandAt fsQ "/r" rootNode []) ["c"]
      (some "g")) = false := by
  refine ⟨by decide, by decide⟩

/-- Whether a filesystem entry makes `os.path.isdir` true (directories,
and unreadable entries treated as unlistable directories). -/
def entIsDir : FsEnt → Bool
  | FsEnt.dir _ => true
  | FsEnt.deny => true
  | FsEnt.file => false

/-- `isdir` of a node's optional filesystem entry. -/
def isDirB : Option FsEnt → Bool
  | some e => entIsDir e
  | none => false

/-- If the child loop of `expand` raises no `collapsed := false` marking,
it leaves the node's own `collapsed` flag alone. -/
theorem expandKids_no_raise_collapsed (es : List (String × FsEnt))
    (depth : Nat) (n : NTree)
    (h : (expandKids es depth n).snd = false) :
    (expandKids es depth n).fst.data.collapsed = n.data.collapsed := by
  induction es generalizing n with
  | nil => rfl
  | cons hd rest ih =>
    obtain ⟨nm, e⟩ := hd
    rw [expandKids] at h ⊢
    simp only [] at h ⊢
    rcases Bool.or_eq_false_iff.mp (by simpa using h) with ⟨h1, h2⟩
    simp only [h1, Bool.false_eq_true, if_false] at h2 ⊢
    rw [ih _ h2]
    rfl

/-- `expand` on an unexpanded, unvisited, collapsed directory node
raises the ancestor marking and leaves the node `collapsed = false`. -/
theorem expandEnt_raises (e : FsEnt) (depth : Nat) (n : NTree)
    (hde : entIsDir e = true) (hx : n.data.expanded = false)
    (hv : n.data.visited = false) (hc : n.data.collapsed = true) :
    (expandEnt e depth n).snd = true ∧
      (expandEnt e depth n).fst.data.collapsed = false := by
  have hev : ¬ (n.data.expanded = true ∨ n.data.visited = true) := by
    simp [hx, hv]
  rw [expandEnt.eq_def]
  simp only [if_neg hev]
  cases e with
  | file => simp [entIsDir] at hde
  | deny =>
    split
    · exact ⟨rfl, rfl⟩
    · rename_i hcnd
      exact absurd ⟨rfl, hc⟩ hcnd
  | dir es =>
    split
    · exact ⟨rfl, rfl⟩
    · rename_i hcnd
      cases hsnd : (expandKids es depth n).snd with
      | true => exact ⟨by simp [hsnd], by simpa using hcnd⟩
      | false =>
        have := expandKids_no_raise_collapsed es depth n hsnd
        rw [hc] at this
        exact absurd ⟨rfl, this⟩ hcnd

/-- Equal node states give equal `collapsed` flags. -/
theorem map_collapsed_of_map_data (o1 o2 : Option NTree)
    (h : o1.map NTree.data = o2.map NTree.data) :
    o1.map (fun m => m.data.collapsed) =
      o2.map (fun m => m.data.collapsed) := by
  cases o1 with
  | none => cases o2 with
    | none => rfl
    | some b => simp [Option.map] at h
  | some a => cases o2 with
    | none => simp [Option.map] at h
    | some b =>
      simp only [Option.map] at h ⊢
      rw [Option.some.inj h]

/-- The partial ancestor-marking fold: the first `k` prefixes are marked
`collapsed = false`, everything from `k` on is untouched. -/
theorem markUp_go (addr : List String) (t : NTree)
    (hs : (getN t addr).isSome = true) :
    ∀ k, k ≤ addr.length →
      (∀ i, i < k →
        (getN ((List.range k).foldl
          (fun t i => updData t (addr.take i)
            (fun d => { d with collapsed := false })) t) (addr.take i)).map
          (fun m => m.data.collapsed) = some false) ∧
      (∀ i, k ≤ i → i ≤ addr.length →
        getN ((List.range k).foldl
          (fun t i => updData t (addr.take i)
            (fun d => { d with collapsed := false })) t) (addr.take i) =
          getN t (addr.take i)) := by
  intro k
  induction k with
  | zero =>
    intro _
    exact ⟨fun i hi => absurd hi (Nat.not_lt_zero i), fun i _ _ => rfl⟩
  | succ k ih =>
    intro hk1
    obtain ⟨ih1, ih2⟩ := ih (Nat.le_of_succ_le hk1)
    rw [List.range_succ, List.foldl_append]
    have hkl : k < addr.length := hk1
    have hsk : (getN t (addr.take k)).isSome = true := by
      refine getN_isSome_append (addr.take k) (addr.drop k) t ?_
      rw [List.take_append_drop]
      exact hs
    have hFk := ih2 k le_rfl (Nat.le_of_lt hkl)
    obtain ⟨m, hm0⟩ := Option.isSome_iff_exists.mp hsk
    have hm := hFk.trans hm0
    constructor
    · intro i hi
      rcases Nat.lt_or_ge i k with hik | hik
      · have hsplit : addr.take k =
            addr.take i ++ (addr.drop i).take (k - i) :=
          take_split addr i k (Nat.le_of_lt hik)
        have hne : (addr.drop i).take (k - i) ≠ [] :=
          take_drop_ne_nil addr i k hik (Nat.lt_trans hik hkl)
        rw [List.foldl_cons, List.foldl_nil]
        refine (map_collapsed_of_map_data _ _ ?_).trans (ih1 i hik)
        rw [updData, hsplit, getN_updN_above _ _ _ _ hne]
      · have hik2 : i = k := Nat.le_antisymm (Nat.lt_succ_iff.mp hi) hik
        subst hik2
        rw [List.foldl_cons, List.foldl_nil, updData,
          getN_updN _ _ _ m hm]
        rfl
    · intro i hi1 hi2
      have hsplit : addr.take i =
          addr.take k ++ (addr.drop k).take (i - k) :=
        take_split addr k i (Nat.le_of_succ_le hi1)
      have hne : (addr.drop k).take (i - k) ≠ [] :=
        take_drop_ne_nil addr k i hi1 hkl
      rw [List.foldl_cons, List.foldl_nil, hsplit,
        getN_updData_proper_pref _ _ _ _ hne]
      rw [← hsplit]
      exact ih2 i (Nat.le_of_succ_le hi1) hi2

/-- `markUp` marks every proper prefix of the address `collapsed = false`
and leaves the node at the address untouched. -/
theorem markUp_spec (t : NTree) (addr : List String)
    (hs : (getN t addr).isSome = true) :
    (∀ i, i < addr.length →
      (getN (markUp t addr) (addr.take i)).map
        (fun m => m.data.collapsed) = some false) ∧
    getN (markUp t addr) addr = getN t addr := by
  obtain ⟨h1, h2⟩ := markUp_go addr t hs addr.length le_rfl
  constructor
  · intro i hi
    rw [markUp]
    exact h1 i hi
  · have := h2 addr.length le_rfl le_rfl
    rw [List.take_length] at this
    rw [markUp]
    exact this

/-- C4 (amended): the biconditional `collapsed ⇔ no quasi descendant`
fails (see the counterexample: visiting clears the quasi nodes but never
restores the root's `collapsed`).  What `expand` does guarantee is the
marking direction on the path it touches: expanding an unexpanded,
unvisited, still-collapsed directory node marks that node and every
ancestor on the chain `collapsed = false` (the quasi children it creates
are below the marked node; `get_child`'s quasi inheritance performs no
such marking). -/
theorem expand_marks_chain_not_collapsed (fs : FsEnt) (rootP : String)
    (t n : NTree) (addr : List String)
    (h : getN t addr = some n) (hx : n.data.expanded = false)
    (hv : n.data.visited = false) (hc : n.data.collapsed = true)
    (hd : isDirB (fsFindPath fs (pathOf rootP addr)) = true) :
    ∀ i, i ≤ addr.length →
      (getN (expandAt fs rootP t addr) (addr.take i)).map
        (fun m => m.data.collapsed) = some false := by
  intro i hi
  cases hf : fsFindPath fs (pathOf rootP addr) with
  | none =>
    rw [hf] at hd
    simp [isDirB] at hd
  | some e =>
    rw [hf] at hd
    have hde : entIsDir e = true := hd
    have hp2 := expandEnt_raises e addr.length n hde hx hv hc
    have hstep : expandAt fs rootP t addr =
        markUp (updN t addr
          (fun _ => (expandEnt e addr.length n).fst)) addr := by
      simp only [expandAt, h, hf, expandSub, hp2.1, if_true]
    rw [hstep]
    have hsome : getN (updN t addr
        (fun _ => (expandEnt e addr.length n).fst)) addr =
        some (expandEnt e addr.length n).fst := getN_updN addr t _ n h
    have hspec := markUp_spec _ addr (by rw [hsome]; rfl)
    rcases Nat.lt_or_ge i addr.length with hlt | hge
    · exact hspec.1 i hlt
    · have hil : i = addr.length := Nat.le_antisymm hi hge
      subst hil
      rw [List.take_length, hspec.2, hsome]
      simp only [Option.map]
      rw [hp2.2]

/-- A two-level tree for the C4 witness: a root holding the fresh,
still-collapsed child `c` (which is a directory of `fsQ`). -/
def tC4 : NTree :=
  NTree.mk
    { group := none, visited := false, expanded := true, collapsed := false,
      quasi := false, prune_guard := 0, weight := 0 }
    [("c", newNode none false 1)]

/-- C4 witness: expanding the directory node `c` marks both the root and
`c` itself `collapsed = false`. -/
theorem expand_marks_chain_not_collapsed_witness :
    (getN (expandAt fsQ "/r" tC4 ["c"]) []).map
      (fun m => m.data.collapsed) = some false ∧
    (getN (expandAt fsQ "/r" tC4 ["c"]) ["c"]).map
      (fun m => m.data.collapsed) = some false :=
  let H := expand_marks_chain_not_collapsed fsQ "/r" tC4
    (newNode none false 1) ["c"] rfl rfl rfl rfl (by decide)
  ⟨H 0 (by decide), H 1 (by decide)⟩

/-! ## Distinct mode and the default group (C2) -/

/-- The filesystem for the C2 counterexample: `/r/d/x`, a directory
holding one file. -/
def fsC2 : FsEnt :=
  FsEnt.dir [("r", FsEnt.dir [("d", FsEnt.dir [("x", FsEnt.file)])])]

/-- C2 counterexample: in distinct mode a nested pattern map produces a
DEFAULT-group entry — after loading the nested config into the matched
directory `d`, `load` visits `d` itself with `DEFAULT` as the group, and
the distinct visit records `d` under `"unknown"`. -/
theorem distinct_default_group_counterexample :
    (fileGrouper fsC2 "/" "r" [("d", StrTree.map [("x", StrTree.str "g")])]
      false true [] 8).groups = [("g", ["d/x"]), ("unknown", ["d"])] ∧
    ((fileGrouper fsC2 "/" "r"
      [("d", StrTree.map [("x", StrTree.str "g")])]
      false true [] 8).groups.any
        (fun p => p.fst == DEFAULT_GROUP)) = true := by
  refine ⟨by decide, by decide⟩

/-- No group list is filed under the DEFAULT group name. -/
def noDefaultB (gs : Groups) : Bool :=
  gs.all (fun p => decide (¬ p.fst = DEFAULT_GROUP))

/-- The append loop of `add_to_group` keeps `noDefaultB` when the group
is not the default one. -/
theorem noDefault_go (g p : String) (hg : ¬ g = DEFAULT_GROUP) :
    ∀ gs, noDefaultB gs = true → noDefaultB (addToGroup.go g p gs) = true := by
  intro gs
  induction gs with
  | nil =>
    intro _
    simp [addToGroup.go, noDefaultB, hg]
  | cons hd rest ih =>
    obtain ⟨g0, l0⟩ := hd
    intro h
    simp only [noDefaultB, List.all_cons, Bool.and_eq_true] at h
    rw [addToGroup.go]
    by_cases he : g0 = g
    · simp only [if_pos he, noDefaultB, List.all_cons, Bool.and_eq_true]
      exact ⟨h.1, h.2⟩
    · simp only [if_neg he, noDefaultB, List.all_cons, Bool.and_eq_true]
      exact ⟨h.1, ih h.2⟩

/-- `add_to_group` with a non-default group keeps `noDefaultB`. -/
theorem noDefault_addToGroup (rootP : String) (ab : Bool) (gs : Groups)
    (g p : String) (hg : ¬ g = DEFAULT_GROUP) (h : noDefaultB gs = true) :
    noDefaultB (addToGroup rootP ab gs g p) = true := by
  rw [addToGroup]
  exact noDefault_go g _ hg gs h

/-- The distinct visit's group-list output is either unchanged or one
`add_to_group` of the effective group. -/
theorem distinctVisit_snd (fs : FsEnt) (rootP : String) (ab : Bool)
    (t : NTree) (gs : Groups) (addr : List String) (g : Option String) :
    (distinctVisit fs rootP ab t gs addr g).snd = gs ∨
    (distinctVisit fs rootP ab t gs addr g).snd =
      addToGroup rootP ab gs (strOr g DEFAULT_GROUP) (pathOf rootP addr) := by
  rw [distinctVisit]
  cases getN t addr with
  | none => right; rfl
  | some _ =>
    simp only []
    cases getN (collapseAt (observeAt t addr) addr) addr with
    | none => left; rfl
    | some n2 =>
      by_cases hgr : n2.data.group.isSome = true
      · left
        simp only [hgr, if_true]
      · right
        simp only [hgr, Bool.false_eq_true, if_false]

/-- A distinct visit with a resolved non-empty, non-default group keeps
`noDefaultB`. -/
theorem noDefault_distinctVisit (fs : FsEnt) (rootP : String) (ab : Bool)
    (t : NTree) (gs : Groups) (addr : List String) (s : String)
    (hs1 : ¬ s = "") (hs2 : ¬ s = DEFAULT_GROUP)
    (h : noDefaultB gs = true) :
    noDefaultB (distinctVisit fs rootP ab t gs addr (some s)).snd = true := by
  have hg : strOr (some s) DEFAULT_GROUP = s := by simp [strOr, hs1]
  rcases distinctVisit_snd fs rootP ab t gs addr (some s) with h2 | h2
  · rw [h2]
    exact h
  · rw [h2, hg]
    exact noDefault_addToGroup rootP ab gs s _ hs2 h

/-- Extended-glob evaluation keeps any property of the group lists that
its consumer keeps (glob itself never touches them). -/
theorem gsPred_glob (Q : Groups → Prop) (f : Nat) :
    ∀ (sink : Sink),
      (∀ st a, Q st.gs → Q (sink st a).gs) →
      (∀ fs rootP st addr rglob d, Q st.gs →
        Q (globChildren fs rootP sink f st addr rglob d).gs) ∧
      (∀ fs rootP st addr d alts, Q st.gs →
        Q (globAlts fs rootP sink f st addr d alts).gs) ∧
      (∀ fs rootP st addr act d, Q st.gs →
        Q (descendGlob fs rootP sink f st addr act d).gs) ∧
      (∀ fs rootP st addr act d, Q st.gs →
        Q (descendNode fs rootP sink f st addr act d).gs) ∧
      (∀ fs rootP st addr names act d, Q st.gs →
        Q (descendKids fs rootP sink f st addr names act d).gs) := by
  have hloc : ∀ (st : GSt) (base : List String) (paths : List String)
      (k : GSt → List String → GSt),
      (∀ st a, Q st.gs → Q (k st a).gs) → Q st.gs →
      Q (locFold st base paths k).gs := by
    intro st base paths k hk h
    rw [locFold]
    refine foldl_preserve (fun (st : GSt) => Q st.gs) _ ?_ _ _ h
    intro s p hs
    simp only []
    cases (locateAt s.tree base (split_path p)).snd with
    | some a => exact hk _ _ hs
    | none => exact hs
  induction f with
  | zero =>
    intro sink hsink
    refine ⟨fun _ _ _ _ _ _ h => h, ?_,
      fun _ _ _ _ _ _ h => h, fun _ _ _ _ _ _ h => h, ?_⟩
    · intro fs rootP st addr d alts h
      cases alts <;> exact h
    · intro fs rootP st addr names act d h
      cases names <;> exact h
  | succ f ih =>
    intro sink hsink
    obtain ⟨ihC, ihA, ihG, ihN, ihK⟩ := ih sink hsink
    obtain ⟨ihCollC, _, _, _, _⟩ := ih collectSink (fun st a h => h)
    refine ⟨?_, ?_, ?_, ?_, ?_⟩
    · intro fs rootP st addr rglob d h
      rw [globChildren]
      exact ihA fs rootP _ addr d _ h
    · intro fs rootP st addr d alts h
      cases alts with
      | nil => exact h
      | cons ga rest =>
        rw [globAlts]
        simp only []
        by_cases hemp :
            (List.filter (fun i => decide ¬ i = ".") (split_path ga)).isEmpty
              = true
        · simp only [hemp, if_true]
          exact hsink st addr h
        · simp only [hemp, Bool.false_eq_true, if_false]
          by_cases hdd :
              (List.filter (fun i => decide ¬ i = ".")
                (split_path ga)).contains ".." = true
          · simp only [hdd, if_true]
            split
            · refine foldl_preserve (fun (st : GSt) => Q st.gs) _ ?_ _ _ ?_
              · intro s p hs
                exact ihC fs rootP s p _ _ hs
              · split
                · exact h
                · exact ihCollC fs rootP _ addr _ false h
            · refine foldl_preserve (fun (st : GSt) => Q st.gs) _ ?_ _ _ ?_
              · intro s p hs
                exact hsink s p hs
              · split
                · exact h
                · exact ihCollC fs rootP _ addr _ false h
          · simp only [hdd, Bool.false_eq_true, if_false]
            by_cases hss :
                (List.filter (fun i => decide ¬ i = ".")
                  (split_path ga)).contains "**" = true
            · simp only [hss, if_true]
              split
              · exact ihG fs rootP st addr _ d h
              · refine hloc st addr _ _ ?_ h
                intro s nd hs
                exact ihG fs rootP s nd _ d hs
            · simp only [hss, Bool.false_eq_true, if_false]
              exact ihA fs rootP _ addr d rest (hloc st addr _ sink hsink h)
    · intro fs rootP st addr act d h
      rw [descendGlob]
      exact ihN fs rootP _ addr act d h
    · intro fs rootP st addr act d h
      rw [descendNode]
      cases hg : getN st.tree addr with
      | none => exact h
      | some n =>
        by_cases hv : n.data.visited = true
        · simp only [hv, if_true]
          exact h
        · simp only [hv, Bool.false_eq_true, if_false]
          cases act with
          | some lo =>
            exact ihK fs rootP _ addr _ _ d (ihC fs rootP st addr lo d h)
          | none =>
            by_cases hdc : (¬ d = true ∨ ¬ n.children.isEmpty = true)
            · simp only [if_pos hdc]
              exact ihK fs rootP _ addr _ none d (hsink st addr h)
            · simp only [if_neg hdc]
              exact ihK fs rootP _ addr _ none d h
    · intro fs rootP st addr names act d h
      cases names with
      | nil => exact h
      | cons nm rest =>
        rw [descendKids]
        cases hgc : getN st.tree (addr ++ [nm]) with
        | none => exact ihK fs rootP st addr rest act d h
        | some c =>
          by_cases hvc : c.data.visited = true
          · simp only [hvc, not_true, Bool.false_eq_true, if_false]
            exact ihK fs rootP st addr rest act d h
          · simp only [hvc, Bool.false_eq_true, not_false_iff, if_true]
            exact ihK fs rootP _ addr rest act d
              (ihN fs rootP st (addr ++ [nm]) act d h)

/-- C2 (amended): in distinct mode no DEFAULT-group entry is produced by
a *flat* config — one whose values are all strings whose
override-resolved group names are neither empty nor `"unknown"` itself.
(The unqualified claim fails: a nested map value makes `load` visit the
matched directory with the DEFAULT group, producing an `"unknown"` entry
— see the counterexample.) -/
theorem distinct_flat_no_default_group (fs : FsEnt) (rootP : String)
    (ab : Bool) (ovr : List (String × String)) :
    ∀ (f : Nat) (st : GSt) (addr : List String)
      (config : List (String × StrTree)),
      (∀ kv ∈ config, ∃ s, kv.snd = StrTree.str s ∧
        ¬ ((pyGet ovr s).getD s) = "" ∧
        ¬ ((pyGet ovr s).getD s) = DEFAULT_GROUP) →
      noDefaultB st.gs = true →
      noDefaultB (load fs rootP ab true ovr f st addr config).gs = true := by
  intro f
  induction f with
  | zero =>
    intro st addr config hc h
    cases config <;> exact h
  | succ f ih =>
    intro st addr config hc h
    cases config with
    | nil => exact h
    | cons kv rest =>
      obtain ⟨gk, v⟩ := kv
      obtain ⟨s, hv, hs1, hs2⟩ := hc (gk, v) (by simp)
      subst hv
      rw [load]
      refine ih _ addr rest (fun kv hkv => hc kv (by simp [hkv])) ?_
      refine (gsPred_glob (fun gs => noDefaultB gs = true) f _ ?_).1
        fs rootP st addr gk false h
      intro st' a h'
      simp only [if_pos rfl]
      exact noDefault_distinctVisit fs rootP ab st'.tree st'.gs a
        ((pyGet ovr s).getD s) hs1 hs2 h'

/-- C2 witness: a flat distinct run produces no `"unknown"` entry. -/
theorem distinct_flat_no_default_group_witness :
    noDefaultB (load fsW "/r" false true [("unknown", "unknown")] 6
      { tree := rootNode, gs := [], ys := [] } []
      [("a", StrTree.str "g")]).gs = true :=
  distinct_flat_no_default_group fsW "/r" false [("unknown", "unknown")] 6
    { tree := rootNode, gs := [], ys := [] } [] [("a", StrTree.str "g")]
    (by
      intro kv hkv
      simp only [List.mem_singleton] at hkv
      subst hkv
      exact ⟨"g", rfl, by decide, by decide⟩)
    (by decide)

end Fgroup
